import Mathlib

/-!
Verification of the ViewStage geometry/compositing engine
(`wasm-viewstage/src/lib.rs` and `src-tauri/src/lib.rs`).

The Rust source computes with `f32`; this development embeds it over `ℚ`
(exact arithmetic, the usual idealization of floating point for a shallow
embedding).  Euclidean distances, which the source obtains with `sqrt`, are
carried as their squares, and every comparison `sqrt d ⋈ t` of the source is
translated to the exactly equivalent rational comparison on the squares
(`sqrt d < t ↔ 0 < t ∧ d < t^2`, `sqrt d ≤ t ↔ 0 ≤ t ∧ d ≤ t^2`,
`sqrt d < sqrt e ↔ d < e`, all valid because squared distances are
nonnegative and `sqrt` is monotone), so all definitions stay executable.
-/

namespace ViewStage

/-- One committed pointer movement (source struct `StrokePoint`). -/
structure SPoint where
  from_x : ℚ
  from_y : ℚ
  to_x : ℚ
  to_y : ℚ
deriving DecidableEq, Repr, Inhabited

/-- Source `distance(x1,y1,x2,y2) = sqrt(dx*dx + dy*dy)`, carried squared. -/
def distanceSq (x1 y1 x2 y2 : ℚ) : ℚ :=
  let dx := x2 - x1
  let dy := y2 - y1
  dx * dx + dy * dy

/-- The source comparison `distance < t`, expressed on the squared distance:
`sqrt dsq < t` iff `0 < t ∧ dsq < t^2` (for `dsq ≥ 0`). -/
def sqrtLt (dsq t : ℚ) : Prop := 0 < t ∧ dsq < t ^ 2

/-- The source comparison `distance ≤ t`, expressed on the squared distance:
`sqrt dsq ≤ t` iff `0 ≤ t ∧ dsq ≤ t^2` (for `dsq ≥ 0`). -/
def sqrtLe (dsq t : ℚ) : Prop := 0 ≤ t ∧ dsq ≤ t ^ 2

instance (dsq t : ℚ) : Decidable (sqrtLt dsq t) := by unfold sqrtLt; infer_instance

instance (dsq t : ℚ) : Decidable (sqrtLe dsq t) := by unfold sqrtLe; infer_instance

/-- Squared version of source `perpendicular_distance`: squared distance from
`(px,py)` to the closest point of the segment `(x1,y1)-(x2,y2)`, with the same
branch structure as the source (`param = -1` for a degenerate segment). -/
def perpendicularDistanceSq (px py x1 y1 x2 y2 : ℚ) : ℚ :=
  let a := px - x1
  let b := py - y1
  let c := x2 - x1
  let d := y2 - y1
  let dot := a * c + b * d
  let lenSq := c * c + d * d
  let param := if lenSq ≠ 0 then dot / lenSq else -1
  let xx := if param < 0 then x1 else if 1 < param then x2 else x1 + param * c
  let yy := if param < 0 then y1 else if 1 < param then y2 else y1 + param * d
  distanceSq px py xx yy

/-- Round half away from zero: the behaviour of Rust `f32::round`. -/
def roundAway (q : ℚ) : ℤ :=
  if 0 ≤ q then ⌊q + 1 / 2⌋ else -⌊-q + 1 / 2⌋

/-- Source `quantize_coord(coord, step) = (coord / step).round() * step`.
Over ℚ, division by `step = 0` yields the junk value 0 (the `f32` source
yields NaN there; either way the C7 bound fails at `step = 0`). -/
def quantize_coord (coord step : ℚ) : ℚ :=
  (roundAway (coord / step) : ℚ) * step

/-- Source `line_rect_intersect`: the 4-way axis rejection test followed by
the corner cross-product test. -/
def line_rect_intersect (x1 y1 x2 y2 rectLeft rectTop rectRight rectBottom : ℚ) : Bool :=
  if x1 < rectLeft ∧ x2 < rectLeft then false
  else if rectRight < x1 ∧ rectRight < x2 then false
  else if y1 < rectTop ∧ y2 < rectTop then false
  else if rectBottom < y1 ∧ rectBottom < y2 then false
  else
    let d1 := (rectLeft - x1) * (y2 - y1) - (rectTop - y1) * (x2 - x1)
    let d2 := (rectRight - x1) * (y2 - y1) - (rectTop - y1) * (x2 - x1)
    let d3 := (rectLeft - x1) * (y2 - y1) - (rectBottom - y1) * (x2 - x1)
    let d4 := (rectRight - x1) * (y2 - y1) - (rectBottom - y1) * (x2 - x1)
    if 0 < d1 * d2 ∧ 0 < d3 * d4 then false else true

/-- Source struct `Stroke`. -/
structure Stroke where
  type : String
  points : List SPoint
  color : Option String := none
  line_width : Option ℕ := none
  eraser_size : Option ℕ := none
deriving DecidableEq, Repr

/-- Source struct `Viewport`. -/
structure Viewport where
  x : ℚ
  y : ℚ
  width : ℚ
  height : ℚ
deriving DecidableEq, Repr

/-- Source `cull_strokes_by_viewport`: keep, in order, the strokes with a
nonempty point list of which some segment passes `line_rect_intersect`
against the viewport rectangle. -/
def cull_strokes_by_viewport (strokes : List Stroke) (vp : Viewport) : List Stroke :=
  let vpLeft := vp.x
  let vpTop := vp.y
  let vpRight := vp.x + vp.width
  let vpBottom := vp.y + vp.height
  strokes.filter fun stroke =>
    !stroke.points.isEmpty &&
      stroke.points.any fun p =>
        line_rect_intersect p.from_x p.from_y p.to_x p.to_y vpLeft vpTop vpRight vpBottom

/-- The C1 failing input: the viewport `{0,0,100,100}`. -/
def vpC1 : Viewport := ⟨0, 0, 100, 100⟩

/-- The C1 failing input: a stroke whose single segment `(50,50)-(60,50)`
lies strictly inside the viewport. -/
def strokeC1 : Stroke := { type := "draw", points := [⟨50, 50, 60, 50⟩] }

/-- C1: the claim says a stroke with an in-bounds point is kept by the cull.
The code culls `strokeC1` although its whole segment lies inside the
viewport: the segment's supporting line is the horizontal `y = 50`, which
meets neither the top nor the bottom edge of the rectangle, so the corner
cross-product test of `line_rect_intersect` rejects it (both top corners are
on one side of the line and both bottom corners on the other pairwise-equal
side).  This theorem evaluates the code at that failing input: the stroke is
dropped even though both its endpoints satisfy the in-bounds inequalities. -/
theorem spec_C1_eval :
    cull_strokes_by_viewport [strokeC1] vpC1 = [] ∧
    line_rect_intersect 50 50 60 50 0 0 100 100 = false ∧
    (vpC1.x ≤ 50 ∧ (50:ℚ) ≤ vpC1.x + vpC1.width ∧
     vpC1.y ≤ 50 ∧ (50:ℚ) ≤ vpC1.y + vpC1.height ∧
     vpC1.x ≤ 60 ∧ (60:ℚ) ≤ vpC1.x + vpC1.width) := by
  norm_num [cull_strokes_by_viewport, line_rect_intersect, strokeC1, vpC1]

/-- Distance of `roundAway` from its argument is at most a half. -/
theorem abs_roundAway_sub_le (q : ℚ) : |(roundAway q : ℚ) - q| ≤ 1 / 2 := by
  unfold roundAway
  by_cases h : 0 ≤ q
  · simp only [if_pos h]
    have h1 : (⌊q + 1 / 2⌋ : ℚ) ≤ q + 1 / 2 := Int.floor_le _
    have h2 : q + 1 / 2 < ⌊q + 1 / 2⌋ + 1 := Int.lt_floor_add_one _
    rw [abs_le]
    constructor <;> linarith
  · simp only [if_neg h]
    have h1 : (⌊-q + 1 / 2⌋ : ℚ) ≤ -q + 1 / 2 := Int.floor_le _
    have h2 : -q + 1 / 2 < ⌊-q + 1 / 2⌋ + 1 := Int.lt_floor_add_one _
    rw [abs_le]
    push_cast
    constructor <;> linarith

/-- C7 counterexample: the claim ranges over every step ≥ 0 permitted by the
config, but at `step = 0` the bound `|result − c| ≤ step/2` fails:
`quantize_coord 1 0 = 0` (in the `f32` source it is NaN) and `|0 − 1| ≤ 0`
is false. -/
theorem spec_C7_cex :
    quantize_coord 1 0 = 0 ∧ ¬(|quantize_coord 1 0 - 1| ≤ 0 / 2) := by
  have h0 : quantize_coord 1 0 = 0 := by
    norm_num [quantize_coord, roundAway]
  refine ⟨h0, ?_⟩
  rw [h0]
  norm_num

/-- C7 (amended): for every coordinate `c` and every step > 0,
`quantize_coord` returns an integer multiple of the step and lands within
`step/2` of `c`; in particular `quantize_coord 1.3 0.25 = 1.25` and
`quantize_coord 1.4 0.25 = 1.5`. -/
theorem spec_C7_amended (c step : ℚ) (h : 0 < step) :
    (∃ k : ℤ, quantize_coord c step = k * step) ∧
    |quantize_coord c step - c| ≤ step / 2 ∧
    quantize_coord (13/10) (1/4) = 5/4 ∧
    quantize_coord (7/5) (1/4) = 3/2 := by
  refine ⟨⟨roundAway (c / step), rfl⟩, ?_, by norm_num [quantize_coord, roundAway],
    by norm_num [quantize_coord, roundAway]⟩
  have hc : c = c / step * step := by field_simp
  have hb := abs_roundAway_sub_le (c / step)
  calc |quantize_coord c step - c|
      = |(roundAway (c / step) : ℚ) - c / step| * |step| := by
        rw [quantize_coord, ← abs_mul, sub_mul, ← hc]
    _ ≤ 1 / 2 * step := by
        rw [abs_of_pos h]
        exact mul_le_mul_of_nonneg_right hb h.le
    _ = step / 2 := by ring

/-- C7 witness: the amended theorem applied at `c = 1.3`, `step = 0.25`. -/
theorem spec_C7_witness :
    (0:ℚ) < 1/4 ∧
    ((∃ k : ℤ, quantize_coord (13/10) (1/4) = k * (1/4)) ∧
     |quantize_coord (13/10) (1/4) - 13/10| ≤ (1/4) / 2 ∧
     quantize_coord (13/10) (1/4) = 5/4 ∧
     quantize_coord (7/5) (1/4) = 3/2) :=
  ⟨by norm_num, spec_C7_amended (13/10) (1/4) (by norm_num)⟩

/-! ## Eraser-to-stroke hit test (source `detect_eraser_collision`) -/

/-- The hit test of the inner loop of `detect_eraser_collision`: the two
from-endpoints are within tolerance, or the two to-endpoints are within
tolerance, or the eraser segment's start point is within perpendicular
(closest-point) distance `tolerance` of the stroke segment. -/
def eraserHit (tolerance : ℚ) (sp ep : SPoint) : Prop :=
  sqrtLe (distanceSq sp.from_x sp.from_y ep.from_x ep.from_y) tolerance ∨
  sqrtLe (distanceSq sp.to_x sp.to_y ep.to_x ep.to_y) tolerance ∨
  sqrtLe (perpendicularDistanceSq ep.from_x ep.from_y
            sp.from_x sp.from_y sp.to_x sp.to_y) tolerance

instance (t : ℚ) (sp ep : SPoint) : Decidable (eraserHit t sp ep) := by
  unfold eraserHit; infer_instance

/-- Inner loop of `detect_eraser_collision` over one stroke's points
(`point_idx` threaded explicitly): collect the indices of the segments hit
by some eraser segment. -/
def strokeHitGo (eraserPoints : List SPoint) (tolerance : ℚ) :
    ℕ → List SPoint → List ℕ
  | _, [] => []
  | j, sp :: rest =>
      if eraserPoints.any fun ep => decide (eraserHit tolerance sp ep) then
        j :: strokeHitGo eraserPoints tolerance (j + 1) rest
      else
        strokeHitGo eraserPoints tolerance (j + 1) rest

/-- The hit segment indices of one stroke (source `stroke_hit_points`). -/
def strokeHitPoints (tolerance : ℚ) (eraserPoints : List SPoint)
    (pts : List SPoint) : List ℕ :=
  strokeHitGo eraserPoints tolerance 0 pts

/-- Outer loop of `detect_eraser_collision` (`stroke_idx` threaded
explicitly): skip erase strokes, report each stroke with a nonempty hit
list. -/
def detectGo (eraserPoints : List SPoint) (tolerance : ℚ) :
    ℕ → List Stroke → List (ℕ × List ℕ)
  | _, [] => []
  | i, s :: rest =>
      if s.type = "erase" then detectGo eraserPoints tolerance (i + 1) rest
      else
        let l := strokeHitPoints tolerance eraserPoints s.points
        if l.isEmpty then detectGo eraserPoints tolerance (i + 1) rest
        else (i, l) :: detectGo eraserPoints tolerance (i + 1) rest

/-- Source `detect_eraser_collision`: the parallel vectors
`hit_stroke_indices` and `hit_point_indices`. -/
def detect_eraser_collision (strokes : List Stroke) (eraserStroke : Stroke)
    (tolerance : ℚ) : List ℕ × List (List ℕ) :=
  let hits := detectGo eraserStroke.points tolerance 0 strokes
  (hits.map Prod.fst, hits.map Prod.snd)

theorem strokeHitGo_mem (eps : List SPoint) (t : ℚ) :
    ∀ (pts : List SPoint) (j0 j : ℕ),
      j ∈ strokeHitGo eps t j0 pts ↔
        ∃ k sp, pts.get? k = some sp ∧ j = j0 + k ∧ ∃ ep ∈ eps, eraserHit t sp ep := by
  intro pts
  induction pts with
  | nil => simp [strokeHitGo]
  | cons sp rest ih =>
    intro j0 j
    rw [strokeHitGo]
    have hiff : ((eps.any fun ep => decide (eraserHit t sp ep)) = true) ↔
        ∃ ep ∈ eps, eraserHit t sp ep := by
      simp
    by_cases hc : ∃ ep ∈ eps, eraserHit t sp ep
    · rw [if_pos (hiff.mpr hc)]
      simp only [List.mem_cons, ih (j0 + 1) j]
      constructor
      · rintro (rfl | ⟨k, sp2, hk, hj, hhit⟩)
        · exact ⟨0, sp, rfl, by omega, hc⟩
        · exact ⟨k + 1, sp2, hk, by omega, hhit⟩
      · rintro ⟨k, sp2, hk, hj, hhit⟩
        cases k with
        | zero =>
          left
          simp only [List.get?_cons_zero, Option.some.injEq] at hk
          omega
        | succ k =>
          right
          exact ⟨k, sp2, hk, by omega, hhit⟩
    · rw [if_neg (fun hb => hc (hiff.mp hb))]
      rw [ih (j0 + 1) j]
      constructor
      · rintro ⟨k, sp2, hk, hj, hhit⟩
        exact ⟨k + 1, sp2, hk, by omega, hhit⟩
      · rintro ⟨k, sp2, hk, hj, hhit⟩
        cases k with
        | zero =>
          simp only [List.get?_cons_zero, Option.some.injEq] at hk
          subst hk
          exact absurd hhit hc
        | succ k =>
          exact ⟨k, sp2, hk, by omega, hhit⟩

theorem detectGo_mem (eps : List SPoint) (t : ℚ) :
    ∀ (strokes : List Stroke) (i0 i : ℕ) (l : List ℕ),
      (i, l) ∈ detectGo eps t i0 strokes ↔
        ∃ k s, strokes.get? k = some s ∧ i = i0 + k ∧ s.type ≠ "erase" ∧
          l = strokeHitPoints t eps s.points ∧ l ≠ [] := by
  intro strokes
  induction strokes with
  | nil => simp [detectGo]
  | cons s rest ih =>
    intro i0 i l
    rw [detectGo]
    by_cases he : s.type = "erase"
    · rw [if_pos he, ih (i0 + 1) i l]
      constructor
      · rintro ⟨k, s2, hk, hi, hne, hl, hnil⟩
        exact ⟨k + 1, s2, hk, by omega, hne, hl, hnil⟩
      · rintro ⟨k, s2, hk, hi, hne, hl, hnil⟩
        cases k with
        | zero =>
          simp only [List.get?_cons_zero, Option.some.injEq] at hk
          subst hk
          exact absurd he hne
        | succ k =>
          exact ⟨k, s2, hk, by omega, hne, hl, hnil⟩
    · rw [if_neg he]
      by_cases hnil : strokeHitPoints t eps s.points = []
      · rw [if_pos (by simp [hnil]), ih (i0 + 1) i l]
        constructor
        · rintro ⟨k, s2, hk, hi, hne, hl, hln⟩
          exact ⟨k + 1, s2, hk, by omega, hne, hl, hln⟩
        · rintro ⟨k, s2, hk, hi, hne, hl, hln⟩
          cases k with
          | zero =>
            simp only [List.get?_cons_zero, Option.some.injEq] at hk
            subst hk
            exact absurd hl.symm (by simpa [hnil] using hln)
          | succ k =>
            exact ⟨k, s2, hk, by omega, hne, hl, hln⟩
      · rw [if_neg (by simp [hnil])]
        simp only [List.mem_cons, Prod.mk.injEq, ih (i0 + 1) i l]
        constructor
        · rintro (⟨rfl, rfl⟩ | ⟨k, s2, hk, hi, hne, hl, hln⟩)
          · exact ⟨0, s, rfl, by omega, he, rfl, hnil⟩
          · exact ⟨k + 1, s2, hk, by omega, hne, hl, hln⟩
        · rintro ⟨k, s2, hk, hi, hne, hl, hln⟩
          cases k with
          | zero =>
            simp only [List.get?_cons_zero, Option.some.injEq] at hk
            subst hk
            exact Or.inl ⟨by omega, hl⟩
          | succ k =>
            exact Or.inr ⟨k, s2, hk, by omega, hne, hl, hln⟩

theorem strokeHitPoints_mem (t : ℚ) (eps pts : List SPoint) (j : ℕ) :
    j ∈ strokeHitPoints t eps pts ↔
      ∃ sp, pts.get? j = some sp ∧ ∃ ep ∈ eps, eraserHit t sp ep := by
  rw [strokeHitPoints, strokeHitGo_mem]
  constructor
  · rintro ⟨k, sp, hk, hj, hhit⟩
    refine ⟨sp, ?_, hhit⟩
    rw [show j = k by omega]
    exact hk
  · rintro ⟨sp, hj, hhit⟩
    exact ⟨j, sp, hj, by omega, hhit⟩

theorem strokeHitPoints_ne_nil (t : ℚ) (eps pts : List SPoint) :
    strokeHitPoints t eps pts ≠ [] ↔
      ∃ j sp, pts.get? j = some sp ∧ ∃ ep ∈ eps, eraserHit t sp ep := by
  constructor
  · intro h
    rcases List.exists_mem_of_ne_nil _ h with ⟨j, hj⟩
    rcases (strokeHitPoints_mem t eps pts j).mp hj with ⟨sp, h1, h2⟩
    exact ⟨j, sp, h1, h2⟩
  · rintro ⟨j, sp, h1, h2⟩
    intro hnil
    have := (strokeHitPoints_mem t eps pts j).mpr ⟨sp, h1, h2⟩
    rw [hnil] at this
    exact absurd this (List.not_mem_nil j)

/-- C5: `detect_eraser_collision` reports exactly the non-erase strokes with
at least one segment for which some eraser segment satisfies the hit
predicate (matching from-endpoints within tolerance, or matching
to-endpoints within tolerance, or the eraser segment's start point within
perpendicular distance tolerance of the target segment), and for each hit
stroke the parallel second list holds exactly its hit segment indices. -/
theorem spec_C5 (strokes : List Stroke) (eraserStroke : Stroke) (tolerance : ℚ) :
    (∀ i : ℕ,
        i ∈ (detect_eraser_collision strokes eraserStroke tolerance).1 ↔
          ∃ s, strokes.get? i = some s ∧ s.type ≠ "erase" ∧
            ∃ j sp, s.points.get? j = some sp ∧
              ∃ ep ∈ eraserStroke.points, eraserHit tolerance sp ep) ∧
    ((detect_eraser_collision strokes eraserStroke tolerance).2.length =
        (detect_eraser_collision strokes eraserStroke tolerance).1.length) ∧
    (∀ k i l,
        (detect_eraser_collision strokes eraserStroke tolerance).1.get? k = some i →
        (detect_eraser_collision strokes eraserStroke tolerance).2.get? k = some l →
          ∃ s, strokes.get? i = some s ∧ s.type ≠ "erase" ∧
            ∀ j : ℕ, j ∈ l ↔ ∃ sp, s.points.get? j = some sp ∧
              ∃ ep ∈ eraserStroke.points, eraserHit tolerance sp ep) := by
  refine ⟨?_, by simp [detect_eraser_collision], ?_⟩
  · intro i
    rw [detect_eraser_collision]
    simp only [List.mem_map]
    constructor
    · rintro ⟨⟨i2, l⟩, hmem, rfl⟩
      dsimp only
      rcases (detectGo_mem _ _ strokes 0 i2 l).mp hmem with ⟨k, s, hk, hi, hne, hl, hln⟩
      refine ⟨s, ?_, hne, ?_⟩
      · rw [show i2 = k by omega]
        exact hk
      · rw [hl] at hln
        exact (strokeHitPoints_ne_nil _ _ _).mp hln
    · rintro ⟨s, hs, hne, hseg⟩
      refine ⟨(i, strokeHitPoints tolerance eraserStroke.points s.points), ?_, rfl⟩
      exact (detectGo_mem _ _ strokes 0 i _).mpr
        ⟨i, s, hs, by omega, hne, rfl, (strokeHitPoints_ne_nil _ _ _).mpr hseg⟩
  · intro k i l h1 h2
    rw [detect_eraser_collision] at h1 h2
    simp only [List.get?_map] at h1 h2
    rcases ho : (detectGo eraserStroke.points tolerance 0 strokes).get? k with _ | ⟨i2, l2⟩
    · rw [ho] at h1; simp at h1
    · rw [ho] at h1 h2
      obtain rfl : i2 = i := by simpa using h1
      obtain rfl : l2 = l := by simpa using h2
      have hmem := List.get?_mem ho
      rcases (detectGo_mem _ _ strokes 0 i2 l2).mp hmem with ⟨k2, s, hk, hi, hne, hl, hln⟩
      refine ⟨s, ?_, hne, ?_⟩
      · rw [show i2 = k2 by omega]
        exact hk
      · intro j
        rw [hl]
        exact strokeHitPoints_mem _ _ _ j

/-! ## Path smoother (source `smooth_path`) -/

/-- Sum of the first `k` entries of a list: the model of the source's
prefix-sum arrays (`prefix[k]` is the sum of the first `k` values). -/
def sumTo (l : List ℚ) (k : ℕ) : ℚ := (l.take k).sum

/-- Rust `as usize` applied to a nonnegative `f32` value: truncation toward
zero (saturating at 0 for negative input). -/
def f32AsUsize (q : ℚ) : ℕ := ⌊q⌋.toNat

/-- The windowed mean of the points with indices `start..stop` (inclusive),
each of the four coordinates averaged: the declarative description of one
output point of the moving-average smoother. -/
def windowMean (pts : List SPoint) (start stop : ℕ) : SPoint :=
  let count : ℚ := ((stop - start + 1 : ℕ) : ℚ)
  let seg := (pts.drop start).take (stop + 1 - start)
  { from_x := ((seg.map (·.from_x)).sum) / count
    from_y := ((seg.map (·.from_y)).sum) / count
    to_x := ((seg.map (·.to_x)).sum) / count
    to_y := ((seg.map (·.to_y)).sum) / count }

/-- Source `smooth_path` (the body after JSON decoding): fewer than two
points are returned unchanged; `"moving_average"` emits, for every index, the
prefix-sum windowed mean over the window `[i - half_window, min (i +
half_window) (n-1)]` with `window_size = (3.0 + smoothness * 7.0) as usize`;
any other algorithm name does the corner-rounding pass. -/
def smooth_path (pts : List SPoint) (smoothness : ℚ) (algorithm : String) :
    List SPoint :=
  if pts.length < 2 then pts
  else if algorithm = "moving_average" then
    let windowSize := f32AsUsize (3 + smoothness * 7)
    let halfWindow := windowSize / 2
    let fxs := pts.map (·.from_x)
    let fys := pts.map (·.from_y)
    let txs := pts.map (·.to_x)
    let tys := pts.map (·.to_y)
    (List.range pts.length).map fun i =>
      let start := i - halfWindow
      let stop := min (i + halfWindow) (pts.length - 1)
      let count : ℚ := ((stop - start + 1 : ℕ) : ℚ)
      { from_x := (sumTo fxs (stop + 1) - sumTo fxs start) / count
        from_y := (sumTo fys (stop + 1) - sumTo fys start) / count
        to_x := (sumTo txs (stop + 1) - sumTo txs start) / count
        to_y := (sumTo tys (stop + 1) - sumTo tys start) / count }
  else
    let smoothFactor := smoothness * (1 / 2)
    let interior := (List.range (pts.length - 2)).map fun k =>
      let prev := pts.getD k default
      let curr := pts.getD (k + 1) default
      let next := pts.getD (k + 2) default
      { from_x := curr.from_x + (prev.to_x - curr.from_x) * smoothFactor
        from_y := curr.from_y + (prev.to_y - curr.from_y) * smoothFactor
        to_x := curr.to_x + (next.from_x - curr.to_x) * smoothFactor
        to_y := curr.to_y + (next.from_y - curr.to_y) * smoothFactor }
    pts.getD 0 default :: (interior ++ [pts.getD (pts.length - 1) default])

/-- The moving-average smoother exactly as the claim words it, with window
size `round(3 + smoothness * 7)`; used only to exhibit that the code
truncates instead of rounding. -/
def movingAverageRoundSpec (pts : List SPoint) (smoothness : ℚ) : List SPoint :=
  let windowSize := (roundAway (3 + smoothness * 7)).toNat
  let halfWindow := windowSize / 2
  (List.range pts.length).map fun i =>
    windowMean pts (i - halfWindow) (min (i + halfWindow) (pts.length - 1))

/-- The C4 counterexample input: five collinear degenerate segments. -/
def ptsC4 : List SPoint := [⟨0, 0, 0, 0⟩, ⟨1, 0, 1, 0⟩, ⟨2, 0, 2, 0⟩, ⟨3, 0, 3, 0⟩, ⟨4, 0, 4, 0⟩]

/-- C4 counterexample: at `smoothness = 9/14` (so `3 + smoothness*7 = 7.5`)
the code truncates the window size to 7 (half-window 3) while the claim's
`round` gives 8 (half-window 4): on `ptsC4` the first output point of the
code is the mean of four points (`3/2`) but the claim's formula yields the
mean of five (`2`). -/
theorem spec_C4_cex :
    (smooth_path ptsC4 (9/14) "moving_average").head? = some ⟨3/2, 0, 3/2, 0⟩ ∧
    (movingAverageRoundSpec ptsC4 (9/14)).head? = some ⟨2, 0, 2, 0⟩ ∧
    (3/2 : ℚ) ≠ 2 := by
  have hws : f32AsUsize (15 / 2 : ℚ) = 7 := by
    rw [f32AsUsize, show ⌊(15 / 2 : ℚ)⌋ = 7 by norm_num]
    simp
  have hwr : (roundAway (15 / 2 : ℚ)).toNat = 8 := by
    rw [roundAway, if_pos (by norm_num), show ⌊(15 / 2 : ℚ) + 1 / 2⌋ = 8 by norm_num]
    simp
  refine ⟨?_, ?_, by norm_num⟩
  · norm_num [smooth_path, ptsC4, hws, sumTo, List.range_succ, min_def]
  · norm_num [movingAverageRoundSpec, ptsC4, hwr, windowMean, List.range_succ, min_def]

theorem sumTo_sub (l : List ℚ) (a k : ℕ) :
    sumTo l (a + k) - sumTo l a = ((l.drop a).take k).sum := by
  rw [sumTo, sumTo, List.take_add, List.sum_append]
  ring

/-- C4 (amended): with fewer than two points the input is returned
unchanged; otherwise the `"moving_average"` output has one point per input
point, and each output point's four coordinates are the arithmetic mean of
the corresponding coordinates over the symmetric window of raw points
centred at its index — the window shrinking (not wrapping) at the sequence
boundaries — where the window size is `3 + smoothness*7` truncated toward
zero (`as usize`), not rounded. -/
theorem spec_C4_amended (pts : List SPoint) (smoothness : ℚ) :
    (∀ algorithm, pts.length < 2 → smooth_path pts smoothness algorithm = pts) ∧
    (2 ≤ pts.length →
      (smooth_path pts smoothness "moving_average").length = pts.length ∧
      ∀ i, i < pts.length →
        (smooth_path pts smoothness "moving_average").get? i =
          some (windowMean pts (i - f32AsUsize (3 + smoothness * 7) / 2)
            (min (i + f32AsUsize (3 + smoothness * 7) / 2) (pts.length - 1)))) := by
  constructor
  · intro algorithm hlt
    rw [smooth_path, if_pos hlt]
  · intro hge
    have hnlt : ¬pts.length < 2 := by omega
    constructor
    · rw [smooth_path, if_neg hnlt, if_pos rfl]
      simp
    · intro i hi
      rw [smooth_path, if_neg hnlt, if_pos rfl]
      simp only [List.get?_map, List.get?_range hi, Option.map_some']
      congr 1
      set hw := f32AsUsize (3 + smoothness * 7) / 2 with hhw
      set a := i - hw with ha
      set b := min (i + hw) (pts.length - 1) with hb
      have hab : a ≤ b := by
        rw [ha, hb]
        omega
      have hk : b + 1 = a + (b + 1 - a) := by omega
      have key : ∀ f : SPoint → ℚ,
          sumTo (pts.map f) (b + 1) - sumTo (pts.map f) a =
            (((pts.drop a).take (b + 1 - a)).map f).sum := by
        intro f
        have h := sumTo_sub (pts.map f) a (b + 1 - a)
        rw [← hk] at h
        rw [h, List.map_take, List.map_drop]
      simp only [windowMean]
      rw [key (·.from_x), key (·.from_y), key (·.to_x), key (·.to_y)]

/-! ## Path simplifier (source `simplify_points_iterative`) -/

/-- The dedup test of `simplify_points_iterative`'s post-pass: all four
coordinate differences strictly below 0.001. -/
def near001 (p q : SPoint) : Prop :=
  |p.from_x - q.from_x| < 1 / 1000 ∧ |p.from_y - q.from_y| < 1 / 1000 ∧
  |p.to_x - q.to_x| < 1 / 1000 ∧ |p.to_y - q.to_y| < 1 / 1000

instance (p q : SPoint) : Decidable (near001 p q) := by
  unfold near001; infer_instance

/-- The post-pass loop over the emitted points, carrying the last kept
point: a point whose four coordinates are all within 0.001 of the last kept
point is dropped. -/
def dedupGo (last : SPoint) : List SPoint → List SPoint
  | [] => []
  | p :: rest => if near001 p last then dedupGo last rest else p :: dedupGo p rest

/-- The post-pass of `simplify_points_iterative` (`unique_result`): the first
point is always kept. -/
def mergeDedup : List SPoint → List SPoint
  | [] => []
  | p :: rest => p :: dedupGo p rest

/-- The index sequence of Rust `((start+1)..end).step_by(step)`. -/
def stepIndices (start stop step : ℕ) : List ℕ :=
  List.range' (start + 1) ((stop - (start + 1) + step - 1) / step) step

/-- One update of the running (squared max deviation, index) accumulator:
the deviation of `points[i].from` from the chord `start_point.from →
end_point.to` (the source compares `dist > max_dist`, i.e. squared values). -/
def scanStep (pts : List SPoint) (sp ep : SPoint) (acc : ℚ × ℕ) (i : ℕ) : ℚ × ℕ :=
  let p := pts.getD i default
  let dsq := perpendicularDistanceSq p.from_x p.from_y
    sp.from_x sp.from_y ep.to_x ep.to_y
  if acc.1 < dsq then (dsq, i) else acc

/-- The deviation scan of `simplify_points_iterative` over one range: the
coarse strided pass (stopping at the first index ≥ the point count, as the
source's `break` does), then the fine pass over `±step` around the coarse
maximum, guarded by `fine_start ≤ fine_end`. -/
def rangeMax (pts : List SPoint) (start stop : ℕ) : ℚ × ℕ :=
  let n := pts.length
  let sp := pts.getD start default
  let ep := pts.getD stop default
  let step0 := if 100 < stop - start then (stop - start) / 100 else 1
  let step := max step0 1
  let coarse := (stepIndices start stop step).takeWhile (· < n)
  let acc1 := coarse.foldl (scanStep pts sp ep) (0, start)
  let fineStart := max (acc1.2 - step) (start + 1)
  let fineStop := min (acc1.2 + step) (stop - 1)
  if fineStart ≤ fineStop then
    ((List.range' fineStart (fineStop + 1 - fineStart)).takeWhile (· < n)).foldl
      (scanStep pts sp ep) acc1
  else acc1

/-- The stack loop of `simplify_points_iterative`, with explicit fuel: the
source loop need not terminate for `epsilon < 0` (a collinear interior point
keeps `max_index = start` and the same range is pushed back forever), so the
model takes fuel, and for `epsilon ≥ 0` the wrapper's fuel is proven
sufficient.  The source's `max_dist > epsilon` is translated on squares:
`sqrt m > eps ↔ eps < 0 ∨ eps^2 < m`. -/
def simplifyLoop (pts : List SPoint) (epsilon : ℚ) :
    ℕ → List (ℕ × ℕ) → List SPoint → List SPoint
  | _, [], result => result
  | 0, _ :: _, result => result
  | fuel + 1, (start, stop) :: stack, result =>
      if stop ≤ start ∨ pts.length ≤ start ∨ pts.length ≤ stop then
        simplifyLoop pts epsilon fuel stack
          (result ++ if start < pts.length then [pts.getD start default] else [])
      else
        if epsilon < 0 ∨ epsilon ^ 2 < (rangeMax pts start stop).1 then
          simplifyLoop pts epsilon fuel
            ((start, (rangeMax pts start stop).2) ::
              ((rangeMax pts start stop).2, stop) :: stack) result
        else
          simplifyLoop pts epsilon fuel stack
            (result ++ [pts.getD start default, pts.getD stop default])

/-- Source `simplify_points_iterative`: empty input → empty output; at most
two points → unchanged; otherwise the stack loop from the full range
followed by the dedup post-pass.  Fuel `2 * length + 1` strictly exceeds the
loop's step count for `epsilon ≥ 0` (see `simplifyLoop_measure`). -/
def simplify_points_iterative (points : List SPoint) (epsilon : ℚ) : List SPoint :=
  if points.length = 0 then []
  else if points.length ≤ 2 then points
  else
    mergeDedup (simplifyLoop points epsilon (2 * points.length + 1)
      [(0, points.length - 1)] [])

/-! ### Invariants of the simplification stack loop -/

/-- The flattened emission of a pair list: each processed range `(s, e)`
contributes the two points `pts[s], pts[e]` to the result, in order. -/
def flatPairs (pts : List SPoint) (ps : List (ℕ × ℕ)) : List SPoint :=
  ps.flatMap fun se => [pts.getD se.1 default, pts.getD se.2 default]

/-- The emitted ranges chain from `a` to `b`: each range starts where the
previous one ended and is nonempty. -/
def PairsFrom : ℕ → List (ℕ × ℕ) → ℕ → Prop
  | a, [], b => a = b
  | a, (s, e) :: ps, b => s = a ∧ s < e ∧ PairsFrom e ps b

/-- The pending stack ranges chain from `b` up to the final index `n - 1`. -/
def StackChain (n : ℕ) : ℕ → List (ℕ × ℕ) → Prop
  | b, [] => b = n - 1
  | b, (s, e) :: st => s = b ∧ s < e ∧ StackChain n e st

/-- Termination measure of one stack entry. -/
def entryMeasure (p : ℕ × ℕ) : ℕ :=
  if p.1 < p.2 then 2 * (p.2 - p.1) - 1 else 1

/-- Termination measure of the whole stack: a split strictly decreases it,
and so does popping an entry. -/
def stackMeasure (st : List (ℕ × ℕ)) : ℕ :=
  (st.map entryMeasure).sum

theorem flatPairs_nil (pts : List SPoint) : flatPairs pts [] = [] := rfl

theorem flatPairs_cons (pts : List SPoint) (s e : ℕ) (ps : List (ℕ × ℕ)) :
    flatPairs pts ((s, e) :: ps) =
      pts.getD s default :: pts.getD e default :: flatPairs pts ps := rfl

theorem flatPairs_cons' (pts : List SPoint) (se : ℕ × ℕ) (ps : List (ℕ × ℕ)) :
    flatPairs pts (se :: ps) =
      pts.getD se.1 default :: pts.getD se.2 default :: flatPairs pts ps := rfl

theorem flatPairs_append (pts : List SPoint) (ps qs : List (ℕ × ℕ)) :
    flatPairs pts (ps ++ qs) = flatPairs pts ps ++ flatPairs pts qs := by
  simp [flatPairs]

theorem PairsFrom_nil (a b : ℕ) : PairsFrom a [] b ↔ a = b := Iff.rfl

theorem PairsFrom_cons (a s e b : ℕ) (ps : List (ℕ × ℕ)) :
    PairsFrom a ((s, e) :: ps) b ↔ s = a ∧ s < e ∧ PairsFrom e ps b := Iff.rfl

theorem StackChain_nil (n b : ℕ) : StackChain n b [] ↔ b = n - 1 := Iff.rfl

theorem StackChain_cons (n b s e : ℕ) (st : List (ℕ × ℕ)) :
    StackChain n b ((s, e) :: st) ↔ s = b ∧ s < e ∧ StackChain n e st := Iff.rfl

theorem stackMeasure_cons (p : ℕ × ℕ) (st : List (ℕ × ℕ)) :
    stackMeasure (p :: st) = entryMeasure p + stackMeasure st := by
  simp [stackMeasure]

theorem entryMeasure_lt (s e : ℕ) (h : s < e) :
    entryMeasure (s, e) = 2 * (e - s) - 1 := by
  simp [entryMeasure, h]

theorem pairsFrom_le : ∀ (ps : List (ℕ × ℕ)) (a b : ℕ), PairsFrom a ps b →
    a ≤ b ∧ ps.length ≤ b - a
  | [], a, b, h => by
      rw [PairsFrom_nil] at h
      simp only [List.length_nil]
      omega
  | (s, e) :: ps, a, b, h => by
      rw [PairsFrom_cons] at h
      have hr := pairsFrom_le ps e b h.2.2
      have h1 := h.1
      have h2 := h.2.1
      simp only [List.length_cons]
      omega

theorem pairsFrom_snoc : ∀ (ps : List (ℕ × ℕ)) (a b e : ℕ),
    PairsFrom a ps b → b < e → PairsFrom a (ps ++ [(b, e)]) e
  | [], a, b, e, h, hbe => by
      rw [PairsFrom_nil] at h
      subst h
      rw [List.nil_append, PairsFrom_cons]
      exact ⟨rfl, hbe, (PairsFrom_nil e e).2 rfl⟩
  | (s, e') :: ps, a, b, e, h, hbe => by
      rw [PairsFrom_cons] at h
      rw [List.cons_append, PairsFrom_cons]
      exact ⟨h.1, h.2.1, pairsFrom_snoc ps e' b e h.2.2 hbe⟩

theorem stackChain_le : ∀ (st : List (ℕ × ℕ)) (n b : ℕ), StackChain n b st → b ≤ n - 1
  | [], n, b, h => by
      rw [StackChain_nil] at h
      omega
  | (s, e) :: st, n, b, h => by
      rw [StackChain_cons] at h
      have hr := stackChain_le st n e h.2.2
      have h1 := h.1
      have h2 := h.2.1
      omega

theorem scanStep_bound (pts : List SPoint) (sp ep : SPoint) (acc : ℚ × ℕ) (i s e : ℕ)
    (hi : s < i ∧ i < e) (hacc : 0 < acc.1 → s < acc.2 ∧ acc.2 < e) :
    0 < (scanStep pts sp ep acc i).1 →
      s < (scanStep pts sp ep acc i).2 ∧ (scanStep pts sp ep acc i).2 < e := by
  simp only [scanStep]
  split
  · intro _
    exact hi
  · exact hacc

theorem scan_fold_bound (pts : List SPoint) (sp ep : SPoint) (s e : ℕ) :
    ∀ (l : List ℕ) (acc : ℚ × ℕ),
      (∀ i ∈ l, s < i ∧ i < e) →
      (0 < acc.1 → s < acc.2 ∧ acc.2 < e) →
      0 < (l.foldl (scanStep pts sp ep) acc).1 →
      s < (l.foldl (scanStep pts sp ep) acc).2 ∧ (l.foldl (scanStep pts sp ep) acc).2 < e
  | [], _, _, hacc => hacc
  | i :: l, acc, hl, hacc => by
      rw [List.foldl_cons]
      exact scan_fold_bound pts sp ep s e l _
        (fun j hj => hl j (List.mem_cons_of_mem _ hj))
        (scanStep_bound pts sp ep acc i s e (hl i (List.mem_cons_self _ _)) hacc)

theorem stepIndices_mem (s e st i : ℕ) (hse : s < e) (hst : 1 ≤ st)
    (hi : i ∈ stepIndices s e st) : s < i ∧ i < e := by
  simp only [stepIndices] at hi
  obtain ⟨k, hk, rfl⟩ := List.mem_range'.1 hi
  have h1 : st * (k + 1) ≤ st * ((e - (s + 1) + st - 1) / st) := Nat.mul_le_mul_left st hk
  have h2 : (e - (s + 1) + st - 1) / st * st ≤ e - (s + 1) + st - 1 := Nat.div_mul_le_self _ _
  rw [Nat.mul_succ] at h1
  rw [Nat.mul_comm] at h2
  omega

set_option maxHeartbeats 1600000 in
/-- Whenever the deviation scan reports a strictly positive squared maximum,
the reported index lies strictly inside the scanned range. -/
theorem rangeMax_bound (pts : List SPoint) (s e : ℕ) (hse : s < e) :
    0 < (rangeMax pts s e).1 → s < (rangeMax pts s e).2 ∧ (rangeMax pts s e).2 < e := by
  simp only [rangeMax]
  have hst1 : 1 ≤ max (if 100 < e - s then (e - s) / 100 else 1) 1 := le_max_right _ _
  generalize hgen : max (if 100 < e - s then (e - s) / 100 else 1) 1 = st
  rw [hgen] at hst1
  split
  · refine scan_fold_bound pts _ _ s e _ _ ?_ (scan_fold_bound pts _ _ s e _ _ ?_ ?_)
    · intro i hi
      have hi2 := (List.takeWhile_sublist _).subset hi
      rw [List.mem_range'_1] at hi2
      omega
    · intro i hi
      exact stepIndices_mem s e st i hse hst1 ((List.takeWhile_sublist _).subset hi)
    · intro h
      exact absurd h (lt_irrefl 0)
  · refine scan_fold_bound pts _ _ s e _ _ ?_ ?_
    · intro i hi
      exact stepIndices_mem s e st i hse hst1 ((List.takeWhile_sublist _).subset hi)
    · intro h
      exact absurd h (lt_irrefl 0)

/-- Main loop invariant: starting from a chained stack and chained emitted
pairs, with enough fuel the loop returns the flattening of a completed pair
chain reaching the last index. -/
theorem simplifyLoop_main (pts : List SPoint) (eps : ℚ) (heps : 0 ≤ eps) :
    ∀ (fuel : ℕ) (stack ps : List (ℕ × ℕ)) (b : ℕ),
      StackChain pts.length b stack → PairsFrom 0 ps b → stackMeasure stack < fuel →
      ∃ qs, simplifyLoop pts eps fuel stack (flatPairs pts ps) =
          flatPairs pts (ps ++ qs) ∧ PairsFrom b qs (pts.length - 1) := by
  intro fuel
  induction fuel with
  | zero =>
      intro stack ps b _ _ hm
      exact absurd hm (Nat.not_lt_zero _)
  | succ fuel ih =>
      intro stack ps b hchain hps hm
      cases stack with
      | nil =>
          refine ⟨[], ?_, ?_⟩
          · rw [List.append_nil]
            simp only [simplifyLoop]
          · rw [StackChain_nil] at hchain
            rw [PairsFrom_nil]
            exact hchain
      | cons hd st =>
          obtain ⟨s, e⟩ := hd
          rw [StackChain_cons] at hchain
          obtain ⟨heq, hse, hst⟩ := hchain
          have hen : e ≤ pts.length - 1 := stackChain_le st pts.length e hst
          have hguard : ¬(e ≤ s ∨ pts.length ≤ s ∨ pts.length ≤ e) := by omega
          rw [stackMeasure_cons, entryMeasure_lt s e hse] at hm
          by_cases hsplit : eps < 0 ∨ eps ^ 2 < (rangeMax pts s e).1
          · have hpos : 0 < (rangeMax pts s e).1 := by
              rcases hsplit with h | h
              · exact absurd h (not_lt.2 heps)
              · exact lt_of_le_of_lt (sq_nonneg eps) h
            have hb := rangeMax_bound pts s e hse hpos
            have hstep : simplifyLoop pts eps (fuel + 1) ((s, e) :: st) (flatPairs pts ps) =
                simplifyLoop pts eps fuel
                  ((s, (rangeMax pts s e).2) :: ((rangeMax pts s e).2, e) :: st)
                  (flatPairs pts ps) := by
              simp only [simplifyLoop]
              rw [if_neg hguard, if_pos hsplit]
            have hchain2 : StackChain pts.length b
                ((s, (rangeMax pts s e).2) :: ((rangeMax pts s e).2, e) :: st) := by
              rw [StackChain_cons]
              refine ⟨heq, hb.1, ?_⟩
              rw [StackChain_cons]
              exact ⟨rfl, hb.2, hst⟩
            have hm2 : stackMeasure
                ((s, (rangeMax pts s e).2) :: ((rangeMax pts s e).2, e) :: st) < fuel := by
              rw [stackMeasure_cons, stackMeasure_cons, entryMeasure_lt s _ hb.1,
                entryMeasure_lt _ e hb.2]
              have h1 := hb.1
              have h2 := hb.2
              omega
            obtain ⟨qs, hqs, hpf⟩ := ih _ ps b hchain2 hps hm2
            exact ⟨qs, hstep.trans hqs, hpf⟩
          · have hstep : simplifyLoop pts eps (fuel + 1) ((s, e) :: st) (flatPairs pts ps) =
                simplifyLoop pts eps fuel st
                  (flatPairs pts ps ++ [pts.getD s default, pts.getD e default]) := by
              simp only [simplifyLoop]
              rw [if_neg hguard, if_neg hsplit]
            have hps2 : PairsFrom 0 (ps ++ [(s, e)]) e := by
              have hb2 : b < e := by omega
              have := pairsFrom_snoc ps 0 b e hps hb2
              rw [heq]
              exact this
            have hm2 : stackMeasure st < fuel := by omega
            obtain ⟨qs, hqs, hpf⟩ := ih st (ps ++ [(s, e)]) e hst hps2 hm2
            refine ⟨(s, e) :: qs, ?_, ?_⟩
            · rw [hstep]
              have hfl : flatPairs pts ps ++ [pts.getD s default, pts.getD e default] =
                  flatPairs pts (ps ++ [(s, e)]) := by
                rw [flatPairs_append]
                rfl
              rw [hfl, hqs, List.append_assoc, List.singleton_append]
            · rw [PairsFrom_cons]
              exact ⟨heq, hse, hpf⟩

/-- On an input of at least three points, `simplify_points_iterative` is the
dedup pass applied to the flattening of a completed pair chain. -/
theorem simplify_big (pts : List SPoint) (eps : ℚ) (heps : 0 ≤ eps) (h3 : 3 ≤ pts.length) :
    ∃ qs, simplify_points_iterative pts eps = mergeDedup (flatPairs pts qs) ∧
      PairsFrom 0 qs (pts.length - 1) ∧ qs ≠ [] := by
  have h0 : ¬pts.length = 0 := by omega
  have h2 : ¬pts.length ≤ 2 := by omega
  have hchain : StackChain pts.length 0 [(0, pts.length - 1)] := by
    rw [StackChain_cons]
    refine ⟨rfl, by omega, ?_⟩
    rw [StackChain_nil]
  have hm : stackMeasure [(0, pts.length - 1)] < 2 * pts.length + 1 := by
    rw [stackMeasure_cons, entryMeasure_lt 0 _ (by omega)]
    simp only [stackMeasure, List.map_nil, List.sum_nil]
    omega
  obtain ⟨qs, hqs, hpf⟩ := simplifyLoop_main pts eps heps (2 * pts.length + 1)
    [(0, pts.length - 1)] [] 0 hchain ((PairsFrom_nil 0 0).2 rfl) hm
  rw [flatPairs_nil, List.nil_append] at hqs
  refine ⟨qs, ?_, hpf, ?_⟩
  · simp only [simplify_points_iterative]
    rw [if_neg h0, if_neg h2, hqs]
  · intro hnil
    subst hnil
    rw [PairsFrom_nil] at hpf
    omega

/-! ### The dedup post-pass against a completed pair chain -/

theorem near001_refl (p : SPoint) : near001 p p := by
  norm_num [near001]

theorem dedupGo_nil (last : SPoint) : dedupGo last [] = [] := rfl

theorem dedupGo_cons (last p : SPoint) (l : List SPoint) :
    dedupGo last (p :: l) =
      if near001 p last then dedupGo last l else p :: dedupGo p l := rfl

theorem mergeDedup_cons (p : SPoint) (l : List SPoint) :
    mergeDedup (p :: l) = p :: dedupGo p l := rfl

theorem dedupGo_flat_length (pts : List SPoint) :
    ∀ (ps : List (ℕ × ℕ)) (a bEnd : ℕ) (last : SPoint), PairsFrom a ps bEnd →
      near001 (pts.getD a default) last →
      (dedupGo last (flatPairs pts ps)).length ≤ ps.length
  | [], _, _, _, _, _ => by
      rw [flatPairs_nil, dedupGo_nil]
      simp
  | (s, e) :: ps, a, bEnd, last, hp, hnear => by
      rw [PairsFrom_cons] at hp
      rw [flatPairs_cons, hp.1, dedupGo_cons, if_pos hnear, dedupGo_cons]
      by_cases h2 : near001 (pts.getD e default) last
      · rw [if_pos h2]
        have := dedupGo_flat_length pts ps e bEnd last hp.2.2 h2
        simp only [List.length_cons]
        omega
      · rw [if_neg h2]
        have := dedupGo_flat_length pts ps e bEnd (pts.getD e default) hp.2.2 (near001_refl _)
        simp only [List.length_cons]
        omega

theorem mergeDedup_flat_length (pts : List SPoint) (a bEnd : ℕ) (qs : List (ℕ × ℕ))
    (hq : PairsFrom a qs bEnd) (hne : qs ≠ []) :
    (mergeDedup (flatPairs pts qs)).length ≤ qs.length + 1 := by
  cases qs with
  | nil => exact absurd rfl hne
  | cons hd ps =>
      obtain ⟨s, e⟩ := hd
      rw [PairsFrom_cons] at hq
      rw [flatPairs_cons, mergeDedup_cons, dedupGo_cons]
      by_cases h2 : near001 (pts.getD e default) (pts.getD s default)
      · rw [if_pos h2]
        have := dedupGo_flat_length pts ps e bEnd (pts.getD s default) hq.2.2 h2
        simp only [List.length_cons]
        omega
      · rw [if_neg h2]
        have := dedupGo_flat_length pts ps e bEnd (pts.getD e default) hq.2.2 (near001_refl _)
        simp only [List.length_cons]
        omega

theorem mergeDedup_flat_head (pts : List SPoint) (a bEnd : ℕ) (qs : List (ℕ × ℕ))
    (hq : PairsFrom a qs bEnd) (hne : qs ≠ []) :
    (mergeDedup (flatPairs pts qs)).head? = some (pts.getD a default) := by
  cases qs with
  | nil => exact absurd rfl hne
  | cons hd ps =>
      obtain ⟨s, e⟩ := hd
      rw [PairsFrom_cons] at hq
      rw [flatPairs_cons, hq.1, mergeDedup_cons]
      rfl

theorem flatPairs_getLast (pts : List SPoint) :
    ∀ (qs : List (ℕ × ℕ)) (a bEnd : ℕ), PairsFrom a qs bEnd → qs ≠ [] →
      (flatPairs pts qs).getLast? = some (pts.getD bEnd default)
  | [], _, _, _, hne => absurd rfl hne
  | [(s, e)], a, bEnd, hp, _ => by
      rw [PairsFrom_cons] at hp
      have h3 := hp.2.2
      rw [PairsFrom_nil] at h3
      subst h3
      rw [flatPairs_cons, flatPairs_nil, List.getLast?_cons_cons]
      rfl
  | (s, e) :: (p :: ps), a, bEnd, hp, _ => by
      rw [PairsFrom_cons] at hp
      rw [flatPairs_cons, flatPairs_cons', List.getLast?_cons_cons, List.getLast?_cons_cons,
        ← flatPairs_cons']
      exact flatPairs_getLast pts (p :: ps) e bEnd hp.2.2 (by simp)

theorem dedupGo_last_near :
    ∀ (l : List SPoint) (last x : SPoint), l.getLast? = some x →
      near001 x ((dedupGo last l).getLastD last)
  | [], _, _, h => by simp at h
  | [p], last, x, h => by
      have hx : p = x := by simpa using h
      subst hx
      rw [dedupGo_cons]
      by_cases hn : near001 p last
      · rw [if_pos hn]
        exact hn
      · rw [if_neg hn, List.getLastD_cons]
        exact near001_refl p
  | p :: q :: rest, last, x, h => by
      rw [List.getLast?_cons_cons] at h
      rw [dedupGo_cons]
      by_cases hn : near001 p last
      · rw [if_pos hn]
        exact dedupGo_last_near (q :: rest) last x h
      · rw [if_neg hn, List.getLastD_cons]
        exact dedupGo_last_near (q :: rest) p x h

theorem mergeDedup_last_near (l : List SPoint) (x : SPoint) (h : l.getLast? = some x) :
    ∃ y, (mergeDedup l).getLast? = some y ∧ near001 x y := by
  cases l with
  | nil => simp at h
  | cons p rest =>
      rw [mergeDedup_cons]
      refine ⟨(dedupGo p rest).getLastD p, ?_, ?_⟩
      · rw [List.getLast?_cons, List.getLastD_eq_getLast?]
      · cases rest with
        | nil =>
            have hx : p = x := by simpa using h
            subst hx
            exact near001_refl p
        | cons q rs =>
            rw [List.getLast?_cons_cons] at h
            exact dedupGo_last_near (q :: rs) p x h

theorem getLast?_getD (P : List SPoint) (hne : P ≠ []) :
    P.getLast? = some (P.getD (P.length - 1) default) := by
  induction P with
  | nil => exact absurd rfl hne
  | cons p rest ih =>
      cases rest with
      | nil => rfl
      | cons q rs =>
          rw [List.getLast?_cons_cons, ih (by simp)]
          simp

/-! ### What `simplify_points_iterative` actually guarantees -/

theorem simplify_empty (eps : ℚ) : simplify_points_iterative [] eps = [] := rfl

theorem simplify_small (P : List SPoint) (eps : ℚ) (h : P.length ≤ 2) :
    simplify_points_iterative P eps = P := by
  by_cases h0 : P.length = 0
  · rw [List.length_eq_zero] at h0
    subst h0
    rfl
  · simp only [simplify_points_iterative]
    rw [if_neg h0, if_pos h]

theorem simplify_length_le (P : List SPoint) (eps : ℚ) (heps : 0 ≤ eps) :
    (simplify_points_iterative P eps).length ≤ P.length := by
  by_cases hsmall : P.length ≤ 2
  · rw [simplify_small P eps hsmall]
  · obtain ⟨qs, hq, hpf, hne⟩ := simplify_big P eps heps (by omega)
    rw [hq]
    have h1 := mergeDedup_flat_length P 0 (P.length - 1) qs hpf hne
    have h2 := pairsFrom_le qs 0 (P.length - 1) hpf
    omega

theorem simplify_head (P : List SPoint) (eps : ℚ) (heps : 0 ≤ eps) (hne : P ≠ []) :
    (simplify_points_iterative P eps).head? = P.head? := by
  by_cases hsmall : P.length ≤ 2
  · rw [simplify_small P eps hsmall]
  · obtain ⟨qs, hq, hpf, hne2⟩ := simplify_big P eps heps (by omega)
    rw [hq, mergeDedup_flat_head P 0 (P.length - 1) qs hpf hne2]
    cases P with
    | nil => exact absurd rfl hne
    | cons p rest => rfl

theorem simplify_last (P : List SPoint) (eps : ℚ) (heps : 0 ≤ eps) (hne : P ≠ []) :
    ∃ x y, P.getLast? = some x ∧ (simplify_points_iterative P eps).getLast? = some y ∧
      near001 x y := by
  by_cases hsmall : P.length ≤ 2
  · refine ⟨P.getD (P.length - 1) default, P.getD (P.length - 1) default,
      getLast?_getD P hne, ?_, near001_refl _⟩
    rw [simplify_small P eps hsmall]
    exact getLast?_getD P hne
  · obtain ⟨qs, hq, hpf, hne2⟩ := simplify_big P eps heps (by omega)
    have hflast : (flatPairs P qs).getLast? = some (P.getD (P.length - 1) default) :=
      flatPairs_getLast P qs 0 (P.length - 1) hpf hne2
    obtain ⟨y, hy, hnear⟩ := mergeDedup_last_near (flatPairs P qs)
      (P.getD (P.length - 1) default) hflast
    refine ⟨P.getD (P.length - 1) default, y, getLast?_getD P hne, ?_, hnear⟩
    rw [hq]
    exact hy

/-! ### C2 and C8 -/

/-- First point of the C2 counterexample input. -/
def ptA2 : SPoint := ⟨0, 0, 0, 0⟩

/-- Second point of the C2 counterexample input (0.0002 ≡ 1/5000). -/
def ptB2 : SPoint := ⟨1 / 5000, 0, 1 / 5000, 0⟩

/-- Third point of the C2 counterexample input (0.0004 ≡ 1/2500). -/
def ptC2 : SPoint := ⟨1 / 2500, 0, 1 / 2500, 0⟩

set_option maxHeartbeats 1600000 in
/-- C2 (counterexample): on the three near-coincident points (0,0),
(0.0002,0), (0.0004,0) with epsilon 0.1, `simplify_points_iterative` returns
only the first point: the dedup post-pass drops every later emitted point as
being within 0.001 of the first kept point, so the output's last point is NOT
the input's last point, refuting the claim that the first and last points are
always preserved. -/
theorem spec_C2_cex :
    simplify_points_iterative [ptA2, ptB2, ptC2] (1 / 10) = [ptA2] ∧
    [ptA2, ptB2, ptC2].getLast? = some ptC2 ∧
    ptA2 ≠ ptC2 := by
  refine ⟨?_, rfl, ?_⟩
  · norm_num [simplify_points_iterative, simplifyLoop, rangeMax, stepIndices, scanStep,
      perpendicularDistanceSq, distanceSq, mergeDedup, dedupGo, near001, abs_lt,
      ptA2, ptB2, ptC2, List.range', List.takeWhile]
  · intro hcon
    have h1 := congrArg SPoint.from_x hcon
    norm_num [ptA2, ptC2] at h1

set_option maxHeartbeats 1600000 in
/-- C2 (amended): for every point list and epsilon ≥ 0, the empty list maps
to the empty list, a list of at most two points is returned unchanged, the
output is never longer than the input, the first point is preserved exactly,
and the last output point is within 0.001 per coordinate of the input's last
point — but not necessarily equal to it (see the counterexample); the
collinear three-segment chain with epsilon 0.1 simplifies to exactly two
points. -/
theorem spec_C2_amended (P : List SPoint) (eps : ℚ) (heps : 0 ≤ eps) :
    simplify_points_iterative [] eps = [] ∧
    (P.length ≤ 2 → simplify_points_iterative P eps = P) ∧
    (simplify_points_iterative P eps).length ≤ P.length ∧
    (P ≠ [] → (simplify_points_iterative P eps).head? = P.head?) ∧
    (P ≠ [] → ∃ x y, P.getLast? = some x ∧
      (simplify_points_iterative P eps).getLast? = some y ∧ near001 x y) ∧
    simplify_points_iterative [⟨0, 0, 1, 0⟩, ⟨1, 0, 2, 0⟩, ⟨2, 0, 3, 0⟩] (1 / 10) =
      [⟨0, 0, 1, 0⟩, ⟨2, 0, 3, 0⟩] :=
  ⟨simplify_empty eps, simplify_small P eps, simplify_length_le P eps heps,
    simplify_head P eps heps, simplify_last P eps heps, by
      norm_num [simplify_points_iterative, simplifyLoop, rangeMax, stepIndices, scanStep,
        perpendicularDistanceSq, distanceSq, mergeDedup, dedupGo, near001, abs_lt,
        List.range', List.takeWhile]⟩

/-- Witness instantiating `spec_C2_amended` at the collinear chain and
epsilon 0.1. -/
theorem spec_C2_amended_witness :
    (0 : ℚ) ≤ 1 / 10 ∧
      (simplify_points_iterative [⟨0, 0, 1, 0⟩, ⟨1, 0, 2, 0⟩, ⟨2, 0, 3, 0⟩] (1 / 10)).length ≤
        ([⟨0, 0, 1, 0⟩, ⟨1, 0, 2, 0⟩, ⟨2, 0, 3, 0⟩] : List SPoint).length :=
  ⟨by norm_num,
    (spec_C2_amended [⟨0, 0, 1, 0⟩, ⟨1, 0, 2, 0⟩, ⟨2, 0, 3, 0⟩] (1 / 10) (by norm_num)).2.2.1⟩

/-- First point of the C8 counterexample input. -/
def ptA8 : SPoint := ⟨0, 0, 0, 0⟩

/-- Second point of the C8 counterexample input (y = −0.00092). -/
def ptB8 : SPoint := ⟨5, -23 / 25000, 5, -23 / 25000⟩

/-- Third point of the C8 counterexample input (y = −0.0009). -/
def ptC8 : SPoint := ⟨10, -9 / 10000, 10, -9 / 10000⟩

/-- Fourth point of the C8 counterexample input. -/
def ptD8 : SPoint := ⟨10, 0, 10, 0⟩

set_option maxHeartbeats 1600000 in
/-- C8 (counterexample): simplification is not idempotent.  On the four-point
input below with epsilon 0.0005, the first pass keeps three points (the
deviation of the middle points from the 0→3 chord exceeds epsilon, and after
splitting, the emitted chain dedups to three points); running the simplifier
again on that three-point result drops its middle point (its deviation from
the new chord is below epsilon), so the second application differs from the
first. -/
theorem spec_C8_cex :
    simplify_points_iterative [ptA8, ptB8, ptC8, ptD8] (1 / 2000) = [ptA8, ptB8, ptC8] ∧
    simplify_points_iterative [ptA8, ptB8, ptC8] (1 / 2000) = [ptA8, ptC8] ∧
    [ptA8, ptB8, ptC8] ≠ [ptA8, ptC8] := by
  refine ⟨?_, ?_, ?_⟩
  · norm_num [simplify_points_iterative, simplifyLoop, rangeMax, stepIndices, scanStep,
      perpendicularDistanceSq, distanceSq, mergeDedup, dedupGo, near001, abs_lt,
      ptA8, ptB8, ptC8, ptD8, List.range', List.takeWhile]
  · norm_num [simplify_points_iterative, simplifyLoop, rangeMax, stepIndices, scanStep,
      perpendicularDistanceSq, distanceSq, mergeDedup, dedupGo, near001, abs_lt,
      ptA8, ptB8, ptC8, List.range', List.takeWhile]
  · intro hcon
    have h1 := congrArg List.length hcon
    simp at h1

/-- C8 (amended): what does hold for epsilon ≥ 0: a second application of the
simplifier never lengthens the result, and whenever the first result has at
most two points the second application returns it unchanged; full idempotence
fails (see the counterexample). -/
theorem spec_C8_amended (P : List SPoint) (eps : ℚ) (heps : 0 ≤ eps) :
    (simplify_points_iterative (simplify_points_iterative P eps) eps).length ≤
      (simplify_points_iterative P eps).length ∧
    ((simplify_points_iterative P eps).length ≤ 2 →
      simplify_points_iterative (simplify_points_iterative P eps) eps =
        simplify_points_iterative P eps) :=
  ⟨simplify_length_le _ eps heps, simplify_small _ eps⟩

/-- Witness instantiating `spec_C8_amended` at the four-point counterexample
input and epsilon 0.0005. -/
theorem spec_C8_amended_witness :
    (0 : ℚ) ≤ 1 / 2000 ∧
      (simplify_points_iterative (simplify_points_iterative [ptA8, ptB8, ptC8, ptD8] (1 / 2000))
          (1 / 2000)).length ≤
        (simplify_points_iterative [ptA8, ptB8, ptC8, ptD8] (1 / 2000)).length :=
  ⟨by norm_num, (spec_C8_amended [ptA8, ptB8, ptC8, ptD8] (1 / 2000) (by norm_num)).1⟩

/-! ## Point capture and throttle (source `collect_points`) -/

/-- Source struct `PointOptimizationConfig`. -/
structure PointOptimizationConfig where
  epsilon : ℚ
  min_distance : ℚ
  quantization : ℚ
deriving DecidableEq, Repr

/-- Source struct `CollectPointsRequest` (the time fields are u64). -/
structure CollectPointsRequest where
  points : List SPoint
  config : PointOptimizationConfig
  last_time : ℕ
  last_x : ℚ
  last_y : ℚ
  current_time : ℕ
deriving DecidableEq, Repr

/-- Source struct `CollectPointsResponse`. -/
structure CollectPointsResponse where
  collected_points : List SPoint
  last_time : ℕ
  last_x : ℚ
  last_y : ℚ
deriving DecidableEq, Repr

/-- u64 subtraction `a - b` as compiled in release mode: wrapping modulo
`2^64` (for `b ≤ a < 2^64` this is the true difference). -/
def u64Sub (a b : ℕ) : ℕ := (2 ^ 64 + a - b) % 2 ^ 64

/-- Both endpoints of a sample quantized to the config's step. -/
def quantizePoint (cfg : PointOptimizationConfig) (p : SPoint) : SPoint :=
  { from_x := quantize_coord p.from_x cfg.quantization
    from_y := quantize_coord p.from_y cfg.quantization
    to_x := quantize_coord p.to_x cfg.quantization
    to_y := quantize_coord p.to_y cfg.quantization }

/-- The distance gate of `collect_points`: the quantized from→to distance is
strictly below `min_distance` (such a sample is skipped). -/
def belowMinDistance (cfg : PointOptimizationConfig) (p : SPoint) : Prop :=
  sqrtLt
    (distanceSq (quantizePoint cfg p).from_x (quantizePoint cfg p).from_y
      (quantizePoint cfg p).to_x (quantizePoint cfg p).to_y)
    cfg.min_distance

instance (cfg : PointOptimizationConfig) (p : SPoint) :
    Decidable (belowMinDistance cfg p) := by
  unfold belowMinDistance; infer_instance

/-- One sample of the `collect_points` loop, release semantics (wrapping u64
subtraction in the time gate).  State: (collected, last_time, last_x,
last_y). -/
def collectStep (cfg : PointOptimizationConfig) (now : ℕ)
    (st : List SPoint × ℕ × ℚ × ℚ) (p : SPoint) : List SPoint × ℕ × ℚ × ℚ :=
  let q := quantizePoint cfg p
  if belowMinDistance cfg p then st
  else if u64Sub now st.2.1 < 30 then st
  else
    let collected := st.1 ++ [q]
    let collected :=
      if 1500 < collected.length then simplify_points_iterative collected cfg.epsilon
      else collected
    (collected, now, q.to_x, q.to_y)

/-- Source `collect_points` (body after JSON decoding), release semantics. -/
def collect_points (req : CollectPointsRequest) : CollectPointsResponse :=
  let st := req.points.foldl (collectStep req.config req.current_time)
    ([], req.last_time, req.last_x, req.last_y)
  { collected_points := st.1
    last_time := st.2.1
    last_x := st.2.2.1
    last_y := st.2.2.2 }

/-- One sample of the `collect_points` loop with debug semantics: the u64
subtraction `now - last_time` panics on underflow, modelled as
`Except.error`. -/
def collectStepChecked (cfg : PointOptimizationConfig) (now : ℕ)
    (st : List SPoint × ℕ × ℚ × ℚ) (p : SPoint) :
    Except Unit (List SPoint × ℕ × ℚ × ℚ) :=
  let q := quantizePoint cfg p
  if belowMinDistance cfg p then .ok st
  else if now < st.2.1 then .error ()
  else if now - st.2.1 < 30 then .ok st
  else
    let collected := st.1 ++ [q]
    let collected :=
      if 1500 < collected.length then simplify_points_iterative collected cfg.epsilon
      else collected
    .ok (collected, now, q.to_x, q.to_y)

/-- Source `collect_points` with debug semantics: `Except.error` models the
panic of an underflowing `now - last_time`. -/
def collect_points_checked (req : CollectPointsRequest) :
    Except Unit CollectPointsResponse :=
  (req.points.foldlM (collectStepChecked req.config req.current_time)
      ([], req.last_time, req.last_x, req.last_y)).map
    fun st =>
      { collected_points := st.1
        last_time := st.2.1
        last_x := st.2.2.1
        last_y := st.2.2.2 }

theorem u64Sub_self (now : ℕ) : u64Sub now now = 0 := by
  rw [u64Sub]
  omega

theorem u64Sub_of_le (a b : ℕ) (h : b ≤ a) (ha : a < 2 ^ 64) :
    u64Sub a b = a - b := by
  rw [u64Sub]
  have h1 : 2 ^ 64 + a - b = 2 ^ 64 + (a - b) := by omega
  rw [h1, Nat.add_mod_left, Nat.mod_eq_of_lt (by omega)]

/-- If the running `last_time` already satisfies the throttle rejection, the
whole remaining fold is inert. -/
theorem collect_fold_inert (cfg : PointOptimizationConfig) (now : ℕ) :
    ∀ (points : List SPoint) (st : List SPoint × ℕ × ℚ × ℚ),
      u64Sub now st.2.1 < 30 →
      points.foldl (collectStep cfg now) st = st := by
  intro points
  induction points with
  | nil => intro st _; rfl
  | cons p rest ih =>
    intro st hst
    have hstep : collectStep cfg now st p = st := by
      rw [collectStep]
      by_cases hd : belowMinDistance cfg p
      · rw [if_pos hd]
      · rw [if_neg hd, if_pos hst]
    rw [List.foldl_cons, hstep]
    exact ih st hst

/-- Closed form of the `collect_points` fold from a fresh (empty) collected
list: nothing is committed when the initial elapsed time is under 30;
otherwise exactly the first sample passing the distance gate is committed,
the cursor moving to its quantized end point and the call time. -/
theorem collect_fold_closed (cfg : PointOptimizationConfig) (now : ℕ) :
    ∀ (points : List SPoint) (last0 : ℕ) (x0 y0 : ℚ),
      points.foldl (collectStep cfg now) ([], last0, x0, y0) =
        if u64Sub now last0 < 30 then ([], last0, x0, y0)
        else
          match points.find? (fun p => !decide (belowMinDistance cfg p)) with
          | some p => ([quantizePoint cfg p], now,
              (quantizePoint cfg p).to_x, (quantizePoint cfg p).to_y)
          | none => ([], last0, x0, y0) := by
  intro points
  induction points with
  | nil =>
    intro last0 x0 y0
    simp only [List.foldl_nil, List.find?_nil]
    split <;> rfl
  | cons p rest ih =>
    intro last0 x0 y0
    rw [List.foldl_cons]
    by_cases hd : belowMinDistance cfg p
    · have hstep : collectStep cfg now ([], last0, x0, y0) p = ([], last0, x0, y0) := by
        rw [collectStep, if_pos hd]
      rw [hstep, ih last0 x0 y0]
      have hfind : (p :: rest).find? (fun p => !decide (belowMinDistance cfg p)) =
          rest.find? (fun p => !decide (belowMinDistance cfg p)) := by
        rw [List.find?_cons]
        simp [hd]
      rw [hfind]
    · by_cases hg : u64Sub now last0 < 30
      · have hstep : collectStep cfg now ([], last0, x0, y0) p = ([], last0, x0, y0) := by
          rw [collectStep, if_neg hd, if_pos hg]
        rw [hstep, collect_fold_inert cfg now rest _ hg, if_pos hg]
      · have hstep : collectStep cfg now ([], last0, x0, y0) p =
            ([quantizePoint cfg p], now,
              (quantizePoint cfg p).to_x, (quantizePoint cfg p).to_y) := by
          rw [collectStep, if_neg hd, if_neg hg]
          norm_num
        rw [hstep, collect_fold_inert cfg now rest _ (by rw [u64Sub_self]; norm_num),
          if_neg hg]
        have hfind : (p :: rest).find? (fun p => !decide (belowMinDistance cfg p)) =
            some p := by
          rw [List.find?_cons]
          simp [hd]
        rw [hfind]

/-- C3: in `collect_points`, a sample is committed iff its quantized from→to
distance is ≥ `min_distance` and the elapsed time since the (running)
cursor `last_time` is ≥ 30, independent of distance; acceptance moves the
cursor to the sample's quantized end point and the call time.  Consequently,
from a fresh call at most one sample commits (the cursor jumps to
`current_time`, so every later sample in the call sees elapsed 0), a commit
happens only when `current_time ≥ last_time + 30`, and the cursor then
carries `current_time`, so two consecutive commits across calls are ≥ 30
time-units apart. -/
theorem spec_C3 (req : CollectPointsRequest)
    (hlt : req.last_time ≤ req.current_time) (hb : req.current_time < 2 ^ 64) :
    (∀ (st : List SPoint × ℕ × ℚ × ℚ) (p : SPoint),
        belowMinDistance req.config p →
          collectStep req.config req.current_time st p = st) ∧
    (∀ (st : List SPoint × ℕ × ℚ × ℚ) (p : SPoint), st.2.1 ≤ req.current_time →
        req.current_time - st.2.1 < 30 →
          collectStep req.config req.current_time st p = st) ∧
    (∀ (st : List SPoint × ℕ × ℚ × ℚ) (p : SPoint), st.2.1 ≤ req.current_time →
        ¬belowMinDistance req.config p → 30 ≤ req.current_time - st.2.1 →
        st.1.length < 1500 →
          collectStep req.config req.current_time st p =
            (st.1 ++ [quantizePoint req.config p], req.current_time,
              (quantizePoint req.config p).to_x, (quantizePoint req.config p).to_y)) ∧
    (collect_points req =
      if 30 ≤ req.current_time - req.last_time then
        match req.points.find? (fun p => !decide (belowMinDistance req.config p)) with
        | some p =>
            { collected_points := [quantizePoint req.config p]
              last_time := req.current_time
              last_x := (quantizePoint req.config p).to_x
              last_y := (quantizePoint req.config p).to_y }
        | none =>
            { collected_points := []
              last_time := req.last_time
              last_x := req.last_x
              last_y := req.last_y }
      else
        { collected_points := []
          last_time := req.last_time
          last_x := req.last_x
          last_y := req.last_y }) ∧
    ((collect_points req).collected_points ≠ [] →
        req.last_time + 30 ≤ req.current_time ∧
        (collect_points req).last_time = req.current_time) ∧
    (collect_points req).collected_points.length ≤ 1 := by
  have hclosed : collect_points req =
      if 30 ≤ req.current_time - req.last_time then
        match req.points.find? (fun p => !decide (belowMinDistance req.config p)) with
        | some p =>
            { collected_points := [quantizePoint req.config p]
              last_time := req.current_time
              last_x := (quantizePoint req.config p).to_x
              last_y := (quantizePoint req.config p).to_y }
        | none =>
            { collected_points := []
              last_time := req.last_time
              last_x := req.last_x
              last_y := req.last_y }
      else
        { collected_points := []
          last_time := req.last_time
          last_x := req.last_x
          last_y := req.last_y } := by
    rw [collect_points, collect_fold_closed, u64Sub_of_le _ _ hlt hb]
    rcases Nat.lt_or_ge (req.current_time - req.last_time) 30 with h | h
    · rw [if_pos h, if_neg (by omega)]
    · rw [if_neg (by omega), if_pos h]
      rcases req.points.find? (fun p => !decide (belowMinDistance req.config p)) with
        _ | p <;> rfl
  refine ⟨?_, ?_, ?_, hclosed, ?_, ?_⟩
  · intro st p hd
    rw [collectStep, if_pos hd]
  · intro st p hle hlt30
    rw [collectStep]
    by_cases hd : belowMinDistance req.config p
    · rw [if_pos hd]
    · rw [if_neg hd, if_pos (by rw [u64Sub_of_le _ _ hle hb]; exact hlt30)]
  · intro st p hle hd h30 hlen
    rw [collectStep, if_neg hd,
      if_neg (by rw [u64Sub_of_le _ _ hle hb]; omega)]
    have : ¬(1500 < (st.1 ++ [quantizePoint req.config p]).length) := by
      simp only [List.length_append, List.length_cons, List.length_nil]
      omega
    simp only [this, if_false]
  · intro hne
    rw [hclosed] at hne ⊢
    rcases Nat.lt_or_ge (req.current_time - req.last_time) 30 with h | h
    · rw [if_neg (by omega)] at hne
      simp at hne
    · rw [if_pos h] at hne ⊢
      rcases hf : req.points.find? (fun p => !decide (belowMinDistance req.config p)) with
        _ | p
      · rw [hf] at hne
        simp at hne
      · exact ⟨by omega, rfl⟩
  · rw [hclosed]
    rcases Nat.lt_or_ge (req.current_time - req.last_time) 30 with h | h
    · rw [if_neg (by omega)]
      simp
    · rw [if_pos h]
      rcases hf : req.points.find? (fun p => !decide (belowMinDistance req.config p)) with
        _ | p <;> simp

/-- C3 witness input: one sample of quantized length 10 against
`min_distance = 1`, cursor time 0, call time 50. -/
def reqC3 : CollectPointsRequest :=
  { points := [⟨0, 0, 10, 0⟩]
    config := { epsilon := 0, min_distance := 1, quantization := 1 }
    last_time := 0
    last_x := 0
    last_y := 0
    current_time := 50 }

/-- C3 witness: the theorem applied at the concrete request `reqC3`. -/
theorem spec_C3_witness :
    (reqC3.last_time ≤ reqC3.current_time ∧ reqC3.current_time < 2 ^ 64) ∧
    ((∀ (st : List SPoint × ℕ × ℚ × ℚ) (p : SPoint),
        belowMinDistance reqC3.config p →
          collectStep reqC3.config reqC3.current_time st p = st) ∧
    (∀ (st : List SPoint × ℕ × ℚ × ℚ) (p : SPoint), st.2.1 ≤ reqC3.current_time →
        reqC3.current_time - st.2.1 < 30 →
          collectStep reqC3.config reqC3.current_time st p = st) ∧
    (∀ (st : List SPoint × ℕ × ℚ × ℚ) (p : SPoint), st.2.1 ≤ reqC3.current_time →
        ¬belowMinDistance reqC3.config p → 30 ≤ reqC3.current_time - st.2.1 →
        st.1.length < 1500 →
          collectStep reqC3.config reqC3.current_time st p =
            (st.1 ++ [quantizePoint reqC3.config p], reqC3.current_time,
              (quantizePoint reqC3.config p).to_x, (quantizePoint reqC3.config p).to_y)) ∧
    (collect_points reqC3 =
      if 30 ≤ reqC3.current_time - reqC3.last_time then
        match reqC3.points.find? (fun p => !decide (belowMinDistance reqC3.config p)) with
        | some p =>
            { collected_points := [quantizePoint reqC3.config p]
              last_time := reqC3.current_time
              last_x := (quantizePoint reqC3.config p).to_x
              last_y := (quantizePoint reqC3.config p).to_y }
        | none =>
            { collected_points := []
              last_time := reqC3.last_time
              last_x := reqC3.last_x
              last_y := reqC3.last_y }
      else
        { collected_points := []
          last_time := reqC3.last_time
          last_x := reqC3.last_x
          last_y := reqC3.last_y }) ∧
    ((collect_points reqC3).collected_points ≠ [] →
        reqC3.last_time + 30 ≤ reqC3.current_time ∧
        (collect_points reqC3).last_time = reqC3.current_time) ∧
    (collect_points reqC3).collected_points.length ≤ 1) :=
  ⟨⟨by norm_num [reqC3], by norm_num [reqC3]⟩,
    spec_C3 reqC3 (by norm_num [reqC3]) (by norm_num [reqC3])⟩

/-- Checked and release runs agree (and no panic happens) while the running
cursor never exceeds the call time. -/
theorem collect_foldM_ok (cfg : PointOptimizationConfig) (now : ℕ)
    (hb : now < 2 ^ 64) :
    ∀ (points : List SPoint) (st : List SPoint × ℕ × ℚ × ℚ), st.2.1 ≤ now →
      points.foldlM (collectStepChecked cfg now) st =
        Except.ok (points.foldl (collectStep cfg now) st) := by
  intro points
  induction points with
  | nil => intro st _; rfl
  | cons p rest ih =>
    intro st hst
    rw [List.foldl_cons, List.foldlM_cons]
    have hstep : collectStepChecked cfg now st p =
        Except.ok (collectStep cfg now st p) := by
      rw [collectStepChecked, collectStep]
      by_cases hd : belowMinDistance cfg p
      · rw [if_pos hd, if_pos hd]
      · rw [if_neg hd, if_neg hd, if_neg (by omega),
          u64Sub_of_le _ _ hst hb]
        by_cases hg : now - st.2.1 < 30
        · rw [if_pos hg, if_pos hg]
        · rw [if_neg hg, if_neg hg]
    rw [hstep]
    have hst2 : (collectStep cfg now st p).2.1 ≤ now := by
      rw [collectStep]
      by_cases hd : belowMinDistance cfg p
      · rw [if_pos hd]; exact hst
      · rw [if_neg hd]
        by_cases hg : u64Sub now st.2.1 < 30
        · rw [if_pos hg]; exact hst
        · rw [if_neg hg]
    exact ih _ hst2

/-- With the cursor time strictly ahead of the call time, the checked run
panics at the first sample passing the distance gate. -/
theorem collect_foldM_panics (cfg : PointOptimizationConfig) (now : ℕ) :
    ∀ (points : List SPoint) (st : List SPoint × ℕ × ℚ × ℚ), now < st.2.1 →
      (∃ p ∈ points, ¬belowMinDistance cfg p) →
      points.foldlM (collectStepChecked cfg now) st = Except.error () := by
  intro points
  induction points with
  | nil =>
    intro st _ hex
    simp at hex
  | cons p rest ih =>
    intro st hst hex
    rw [List.foldlM_cons]
    by_cases hd : belowMinDistance cfg p
    · have hstep : collectStepChecked cfg now st p = Except.ok st := by
        rw [collectStepChecked, if_pos hd]
      rw [hstep]
      have hex2 : ∃ p2 ∈ rest, ¬belowMinDistance cfg p2 := by
        rcases hex with ⟨p2, hmem, hp2⟩
        rcases List.mem_cons.mp hmem with rfl | hmem2
        · exact absurd hd hp2
        · exact ⟨p2, hmem2, hp2⟩
      exact ih st hst hex2
    · have hstep : collectStepChecked cfg now st p = Except.error () := by
        rw [collectStepChecked, if_neg hd, if_pos hst]
      rw [hstep]
      rfl

/-- C9 counterexample input A: empty sample list with a cursor time far
ahead of the call time. -/
def reqC9A : CollectPointsRequest :=
  { points := []
    config := { epsilon := 0, min_distance := 0, quantization := 0 }
    last_time := 100
    last_x := 0
    last_y := 0
    current_time := 0 }

/-- C9 counterexample input B: one distance-passing sample, cursor time
`2^64 - 1`, call time 0 (release wrap gives elapsed 1). -/
def reqC9B : CollectPointsRequest :=
  { points := [⟨0, 0, 10, 0⟩]
    config := { epsilon := 0, min_distance := 1, quantization := 1 }
    last_time := 2 ^ 64 - 1
    last_x := 0
    last_y := 0
    current_time := 0 }

/-- C9 counterexample: the claim says an input whose carried `lastTime`
exceeds `current_time` makes the subtraction underflow and that in release
the wrap means the throttle never rejects.  Both universals fail: request A
(`lastTime = 100 > 0 = current_time`, no samples) returns normally without
ever subtracting, and request B (`lastTime = 2^64 - 1`, one distance-passing
sample) wraps to elapsed `1 < 30`, so the throttle rejects and nothing is
committed. -/
theorem spec_C9_cex :
    collect_points_checked reqC9A =
      Except.ok { collected_points := [], last_time := 100, last_x := 0, last_y := 0 } ∧
    reqC9A.current_time < reqC9A.last_time ∧
    (collect_points reqC9B).collected_points = [] ∧
    reqC9B.current_time < reqC9B.last_time ∧
    ¬belowMinDistance reqC9B.config ⟨0, 0, 10, 0⟩ := by
  have hbelow : ¬belowMinDistance reqC9B.config ⟨0, 0, 10, 0⟩ := by
    rw [belowMinDistance]
    norm_num [quantizePoint, quantize_coord, roundAway, distanceSq, sqrtLt, reqC9B]
  refine ⟨rfl, by norm_num [reqC9A], ?_, by norm_num [reqC9B], hbelow⟩
  rw [show (collect_points reqC9B).collected_points =
      (reqC9B.points.foldl (collectStep reqC9B.config reqC9B.current_time)
        ([], reqC9B.last_time, reqC9B.last_x, reqC9B.last_y)).1 from rfl,
    collect_fold_closed]
  have hwrap : u64Sub reqC9B.current_time reqC9B.last_time = 1 := by
    rw [u64Sub]
    norm_num [reqC9B]
  rw [hwrap, if_pos (by norm_num)]

/-- C9 (amended): for u64-valued inputs, `collect_points` never underflows
when `current_time ≥ lastTime` (the checked/debug run returns normally and
agrees with the release run); an input with at least one sample passing the
distance gate and `lastTime > current_time` underflows (debug panic); in
release the subtraction wraps modulo `2^64`, so whenever additionally
`lastTime − current_time ≤ 2^64 − 30` the throttle does not reject the
first distance-passing sample, which is committed. -/
theorem spec_C9_amended (req : CollectPointsRequest)
    (hb : req.current_time < 2 ^ 64) (hb2 : req.last_time < 2 ^ 64) :
    (req.last_time ≤ req.current_time →
      collect_points_checked req = Except.ok (collect_points req)) ∧
    (req.current_time < req.last_time →
      (∃ p ∈ req.points, ¬belowMinDistance req.config p) →
      collect_points_checked req = Except.error ()) ∧
    (req.current_time < req.last_time →
      req.last_time - req.current_time ≤ 2 ^ 64 - 30 →
      ∀ p, req.points.find? (fun p => !decide (belowMinDistance req.config p)) = some p →
        (collect_points req).collected_points = [quantizePoint req.config p]) := by
  refine ⟨?_, ?_, ?_⟩
  · intro hle
    rw [collect_points_checked, collect_points,
      collect_foldM_ok req.config req.current_time hb req.points _ hle]
    rfl
  · intro hgt hex
    rw [collect_points_checked,
      collect_foldM_panics req.config req.current_time req.points _ hgt hex]
    rfl
  · intro hgt hbound p hfind
    rw [show (collect_points req).collected_points =
        (req.points.foldl (collectStep req.config req.current_time)
          ([], req.last_time, req.last_x, req.last_y)).1 from rfl,
      collect_fold_closed]
    have hwrap : ¬(u64Sub req.current_time req.last_time < 30) := by
      rw [u64Sub]
      have h1 : 2 ^ 64 + req.current_time - req.last_time =
          2 ^ 64 - (req.last_time - req.current_time) := by omega
      rw [h1, Nat.mod_eq_of_lt (by omega)]
      omega
    rw [if_neg hwrap, hfind]

/-- C9 witness: the amended theorem applied at the concrete request
`reqC9A` (whose time fields are u64-sized). -/
theorem spec_C9_witness :
    (reqC9A.current_time < 2 ^ 64 ∧ reqC9A.last_time < 2 ^ 64) ∧
    ((reqC9A.last_time ≤ reqC9A.current_time →
      collect_points_checked reqC9A = Except.ok (collect_points reqC9A)) ∧
    (reqC9A.current_time < reqC9A.last_time →
      (∃ p ∈ reqC9A.points, ¬belowMinDistance reqC9A.config p) →
      collect_points_checked reqC9A = Except.error ()) ∧
    (reqC9A.current_time < reqC9A.last_time →
      reqC9A.last_time - reqC9A.current_time ≤ 2 ^ 64 - 30 →
      ∀ p, reqC9A.points.find?
          (fun p => !decide (belowMinDistance reqC9A.config p)) = some p →
        (collect_points reqC9A).collected_points = [quantizePoint reqC9A.config p])) :=
  ⟨⟨by norm_num [reqC9A], by norm_num [reqC9A]⟩,
    spec_C9_amended reqC9A (by norm_num [reqC9A]) (by norm_num [reqC9A])⟩

/-! ## Stroke compositor (source `src-tauri/src/lib.rs`) -/

/-- One RGBA pixel (u8 channels). -/
structure Rgba where
  r : ℕ
  g : ℕ
  b : ℕ
  a : ℕ
deriving DecidableEq, Repr

/-- The canvas: its dimensions and pixel contents, the contents total as a
function over ℤ×ℤ (writes outside the bounds never happen; what the
function returns there models nothing). -/
structure Canvas where
  width : ℕ
  height : ℕ
  pix : ℤ → ℤ → Rgba

/-- The in-bounds test of every pixel write
(`px >= 0 && py >= 0 && px < width && py < height`). -/
def Canvas.inBounds (c : Canvas) (x y : ℤ) : Prop :=
  0 ≤ x ∧ 0 ≤ y ∧ x < (c.width : ℤ) ∧ y < (c.height : ℤ)

instance (c : Canvas) (x y : ℤ) : Decidable (c.inBounds x y) := by
  unfold Canvas.inBounds; infer_instance

/-- A single-pixel write (`put_pixel` / `get_pixel_mut` assignment). -/
def Canvas.set (c : Canvas) (x y : ℤ) (p : Rgba) : Canvas :=
  { c with pix := fun u v => if u = x ∧ v = y then p else c.pix u v }

/-- A pixel with its alpha channel cleared (`pixel[3] = 0`). -/
def alpha0 (p : Rgba) : Rgba :=
  { p with a := 0 }

/-- The digital-line walk shared by `draw_line_on_canvas` and
`erase_line_on_canvas` (classic integer Bresenham): the list of pixels the
loop visits.  Each iteration stamps `(x,y)`, breaks at the endpoint, then
steps by the doubled-error rule; the fuel bounds the iterations, and the
wrapper's `dx + dy` fuel always reaches the endpoint (`bresGo_getLast`). -/
def bresGo (x2 y2 dx dy sx sy : ℤ) : ℕ → ℤ → ℤ → ℤ → List (ℤ × ℤ)
  | fuel, x, y, err =>
    (x, y) ::
      (if x = x2 ∧ y = y2 then []
       else
         match fuel with
         | 0 => []
         | fuel + 1 =>
           let e2 := 2 * err
           let err1 := if -dy < e2 then err - dy else err
           let x1 := if -dy < e2 then x + sx else x
           let err2 := if e2 < dx then err1 + dx else err1
           let y1 := if e2 < dx then y + sy else y
           bresGo x2 y2 dx dy sx sy fuel x1 y1 err2)

/-- The pixels visited when walking the segment `(x1,y1) → (x2,y2)`. -/
def bresenham (x1 y1 x2 y2 : ℤ) : List (ℤ × ℤ) :=
  let dx := |x2 - x1|
  let dy := |y2 - y1|
  let sx : ℤ := if x1 < x2 then 1 else -1
  let sy : ℤ := if y1 < y2 then 1 else -1
  bresGo x2 y2 dx dy sx sy (dx + dy).toNat x1 y1 (dx - dy)

/-- The closed integer interval `[lo, hi]` as a list. -/
def intRange (lo hi : ℤ) : List ℤ :=
  (List.range (hi + 1 - lo).toNat).map fun (k : ℕ) => lo + (k : ℤ)

/-- The offset pairs of the source's nested `wx`/`wy` stamping loops
(`-half_width..=half_width` each way). -/
def discOffsets (half : ℤ) : List (ℤ × ℤ) :=
  (intRange (-half) half).bind fun wx => (intRange (-half) half).map fun wy => (wx, wy)

/-- One stamped eraser write: inside the canvas and inside the disc
(`sqrt(wx²+wy²) ≤ half`, i.e. `wx²+wy² ≤ half²`), the alpha channel is set
to 0. -/
def eraseStampAt (half x y : ℤ) (c : Canvas) (w : ℤ × ℤ) : Canvas :=
  let px := x + w.1
  let py := y + w.2
  if c.inBounds px py ∧ w.1 * w.1 + w.2 * w.2 ≤ half * half then
    c.set px py (alpha0 (c.pix px py))
  else c

/-- Source `erase_line_on_canvas`: walk the digital line, stamping the
alpha-clearing disc of radius `width/2` at every visited pixel. -/
def erase_line_on_canvas (c : Canvas) (x1 y1 x2 y2 : ℤ) (width : ℕ) : Canvas :=
  let half : ℤ := (width / 2 : ℕ)
  (bresenham x1 y1 x2 y2).foldl
    (fun acc xy => (discOffsets half).foldl (eraseStampAt half xy.1 xy.2) acc) c

/-- Rust `as u8` on an `f32` value: truncation toward zero, saturating into
`[0, 255]`. -/
def f32AsU8 (q : ℚ) : ℕ :=
  min (⌊q⌋.toNat) 255

/-- One stamped draw write: a fully opaque color replaces the pixel, a
translucent one is alpha-blended channelwise. -/
def drawStampAt (color : Rgba) (half x y : ℤ) (c : Canvas) (w : ℤ × ℤ) : Canvas :=
  let px := x + w.1
  let py := y + w.2
  if c.inBounds px py ∧ w.1 * w.1 + w.2 * w.2 ≤ half * half then
    if color.a = 255 then c.set px py color
    else
      let alpha : ℚ := (color.a : ℚ) / 255
      let inv : ℚ := 1 - alpha
      let old := c.pix px py
      c.set px py
        { r := f32AsU8 ((color.r : ℚ) * alpha + (old.r : ℚ) * inv)
          g := f32AsU8 ((color.g : ℚ) * alpha + (old.g : ℚ) * inv)
          b := f32AsU8 ((color.b : ℚ) * alpha + (old.b : ℚ) * inv)
          a := old.a }
  else c

/-- Source `draw_line_on_canvas`. -/
def draw_line_on_canvas (c : Canvas) (x1 y1 x2 y2 : ℤ) (color : Rgba)
    (width : ℕ) : Canvas :=
  let half : ℤ := (width / 2 : ℕ)
  (bresenham x1 y1 x2 y2).foldl
    (fun acc xy => (discOffsets half).foldl (drawStampAt color half xy.1 xy.2) acc) c

/-- The value of an ASCII hex digit byte. -/
def hexDigitVal (b : ℕ) : Option ℕ :=
  if 48 ≤ b ∧ b ≤ 57 then some (b - 48)
  else if 97 ≤ b ∧ b ≤ 102 then some (b - 87)
  else if 65 ≤ b ∧ b ≤ 70 then some (b - 55)
  else none

/-- Rust `u8::from_str_radix(s, 16)` on a two-byte slice: an optional
leading `+` then hex digits (two hex digits never overflow a u8). -/
def fromStrRadix16 (bs : List ℕ) : Option ℕ :=
  match bs with
  | [b1, b2] =>
      match hexDigitVal b1, hexDigitVal b2 with
      | some x, some y => some (16 * x + y)
      | _, _ => if b1 = 43 then hexDigitVal b2 else none
  | _ => none

/-- A UTF-8 continuation byte (`0x80..=0xBF`): a byte index inside a
multibyte character is not a char boundary there. -/
def isContinuation (b : ℕ) : Prop := 128 ≤ b ∧ b ≤ 191

instance (b : ℕ) : Decidable (isContinuation b) := by
  unfold isContinuation; infer_instance

/-- Source `parse_color`, at the byte level of a Rust `&str` (the argument
is the string's UTF-8 bytes).  Rust slices `&s[1..3]`, `&s[3..5]`, `&s[5..7]`
panic when index 3 or 5 is not a char boundary — for a valid UTF-8 string
starting with ASCII `#` and of byte length 7 that is exactly "byte 3 or
byte 5 is a continuation byte"; the panic is modelled as `none`.  Each
malformed hex pair defaults individually to 52/152/219, and both branches
return alpha 255. -/
def parse_color (s : List ℕ) : Option Rgba :=
  if s.head? = some 35 ∧ s.length = 7 then
    if isContinuation (s.getD 3 0) ∨ isContinuation (s.getD 5 0) then none
    else
      some { r := (fromStrRadix16 ((s.drop 1).take 2)).getD 52
             g := (fromStrRadix16 ((s.drop 3).take 2)).getD 152
             b := (fromStrRadix16 ((s.drop 5).take 2)).getD 219
             a := 255 }
  else some { r := 52, g := 152, b := 219, a := 255 }

/-- Source struct `Stroke` of the compositor crate (`src-tauri`), its color
string carried as UTF-8 bytes. -/
structure CStroke where
  stroke_type : String
  points : List SPoint
  color : Option (List ℕ) := none
  line_width : Option ℕ := none
  eraser_size : Option ℕ := none

/-- Rust `as i32` on an `f32` value: truncation toward zero, saturating. -/
def f32AsI32 (q : ℚ) : ℤ :=
  let t : ℤ := if 0 ≤ q then ⌊q⌋ else -⌊-q⌋
  max (-(2 ^ 31)) (min t (2 ^ 31 - 1))

/-- The UTF-8 bytes of `"#3498db"`, the compositor's default color. -/
def defaultColorBytes : List ℕ := [35, 51, 52, 57, 56, 100, 98]

/-- One iteration of `compact_strokes`' stroke loop: empty point lists are
skipped; a `"draw"` stroke parses its color (a `parse_color` panic
propagates) and draws every segment with width `line_width.unwrap_or(2)`; an
`"erase"` stroke erases every segment with width `eraser_size.unwrap_or(15)`;
any other kind does nothing. -/
def applyStroke (c : Canvas) (st : CStroke) : Option Canvas :=
  if st.points.isEmpty then some c
  else if st.stroke_type = "draw" then
    (parse_color (st.color.getD defaultColorBytes)).map fun color =>
      st.points.foldl
        (fun acc p => draw_line_on_canvas acc (f32AsI32 p.from_x) (f32AsI32 p.from_y)
          (f32AsI32 p.to_x) (f32AsI32 p.to_y) color (st.line_width.getD 2)) c
  else if st.stroke_type = "erase" then
    some (st.points.foldl
      (fun acc p => erase_line_on_canvas acc (f32AsI32 p.from_x) (f32AsI32 p.from_y)
        (f32AsI32 p.to_x) (f32AsI32 p.to_y) (st.eraser_size.getD 15)) c)
  else some c

/-- The strokes loop of `compact_strokes` (the base-image initialization and
the PNG encoding around it are I/O plumbing outside the claims). -/
def compact_strokes_apply (c : Canvas) (strokes : List CStroke) : Option Canvas :=
  strokes.foldlM applyStroke c

/-- The stamped region of one walked segment: in canvas bounds and within
the disc of radius `half` around some pixel of the digital line. -/
def stampedSeg (c : Canvas) (x1 y1 x2 y2 half px py : ℤ) : Prop :=
  c.inBounds px py ∧ ∃ q ∈ bresenham x1 y1 x2 y2,
    (px - q.1) * (px - q.1) + (py - q.2) * (py - q.2) ≤ half * half

instance (c : Canvas) (x1 y1 x2 y2 half px py : ℤ) :
    Decidable (stampedSeg c x1 y1 x2 y2 half px py) := by
  unfold stampedSeg; infer_instance

/-- The stamped region of a whole erase stroke as applied by the
compositor: the union of its segments' stamped discs, clipped to the canvas
bounds. -/
def eraseRegion (c : Canvas) (st : CStroke) (px py : ℤ) : Prop :=
  ∃ p ∈ st.points,
    stampedSeg c (f32AsI32 p.from_x) (f32AsI32 p.from_y)
      (f32AsI32 p.to_x) (f32AsI32 p.to_y)
      (((st.eraser_size.getD 15) / 2 : ℕ) : ℤ) px py

instance (c : Canvas) (st : CStroke) (px py : ℤ) :
    Decidable (eraseRegion c st px py) := by
  unfold eraseRegion; infer_instance

theorem alphaZero_idem (p : Rgba) : alpha0 (alpha0 p) = alpha0 p := rfl

theorem inBounds_of_dims {c2 c : Canvas} (hw : c2.width = c.width)
    (hh : c2.height = c.height) (px py : ℤ) :
    c2.inBounds px py ↔ c.inBounds px py := by
  rw [Canvas.inBounds, Canvas.inBounds, hw, hh]

theorem eraseStampAt_dims (half x y : ℤ) (c : Canvas) (w : ℤ × ℤ) :
    (eraseStampAt half x y c w).width = c.width ∧
    (eraseStampAt half x y c w).height = c.height := by
  rw [eraseStampAt]
  split <;> exact ⟨rfl, rfl⟩

theorem eraseStampAt_pix (half x y : ℤ) (c : Canvas) (w : ℤ × ℤ) (px py : ℤ) :
    (eraseStampAt half x y c w).pix px py =
      if px = x + w.1 ∧ py = y + w.2 ∧ c.inBounds px py ∧
          w.1 * w.1 + w.2 * w.2 ≤ half * half
      then alpha0 (c.pix px py) else c.pix px py := by
  rw [eraseStampAt]
  by_cases hg : c.inBounds (x + w.1) (y + w.2) ∧ w.1 * w.1 + w.2 * w.2 ≤ half * half
  · rw [if_pos hg, Canvas.set]
    dsimp only
    by_cases he : px = x + w.1 ∧ py = y + w.2
    · rw [if_pos he, if_pos ⟨he.1, he.2, by rw [he.1, he.2]; exact hg.1, hg.2⟩,
        he.1, he.2]
    · rw [if_neg he, if_neg (fun hcon => he ⟨hcon.1, hcon.2.1⟩)]
  · rw [if_neg hg]
    by_cases he : px = x + w.1 ∧ py = y + w.2 ∧ c.inBounds px py ∧
        w.1 * w.1 + w.2 * w.2 ≤ half * half
    · exact absurd ⟨by rw [← he.1, ← he.2.1]; exact he.2.2.1, he.2.2.2⟩ hg
    · rw [if_neg he]

theorem eraseOffsets_fold (half x y : ℤ) :
    ∀ (ws : List (ℤ × ℤ)) (c : Canvas),
      (ws.foldl (eraseStampAt half x y) c).width = c.width ∧
      (ws.foldl (eraseStampAt half x y) c).height = c.height ∧
      ∀ px py : ℤ,
        (ws.foldl (eraseStampAt half x y) c).pix px py =
          if c.inBounds px py ∧ ∃ w ∈ ws, px = x + w.1 ∧ py = y + w.2 ∧
              w.1 * w.1 + w.2 * w.2 ≤ half * half
          then alpha0 (c.pix px py) else c.pix px py := by
  intro ws
  induction ws with
  | nil =>
    intro c
    refine ⟨rfl, rfl, fun px py => ?_⟩
    rw [List.foldl_nil, if_neg (by rintro ⟨-, w, hw, -⟩; exact (List.not_mem_nil w) hw)]
  | cons w rest ih =>
    intro c
    rw [List.foldl_cons]
    rcases ih (eraseStampAt half x y c w) with ⟨ihw, ihh, ihp⟩
    rcases eraseStampAt_dims half x y c w with ⟨hw1, hh1⟩
    refine ⟨by rw [ihw, hw1], by rw [ihh, hh1], fun px py => ?_⟩
    rw [ihp px py, eraseStampAt_pix half x y c w px py]
    simp only [inBounds_of_dims hw1 hh1]
    by_cases hb : c.inBounds px py
    · by_cases hthis : px = x + w.1 ∧ py = y + w.2 ∧
          w.1 * w.1 + w.2 * w.2 ≤ half * half
      · by_cases hrest : ∃ w2 ∈ rest, px = x + w2.1 ∧ py = y + w2.2 ∧
            w2.1 * w2.1 + w2.2 * w2.2 ≤ half * half
        · rw [if_pos ⟨hb, hrest⟩, if_pos ⟨hthis.1, hthis.2.1, hb, hthis.2.2⟩,
            if_pos ⟨hb, w, List.mem_cons_self w rest, hthis⟩, alphaZero_idem]
        · rw [if_neg (fun hcon => hrest hcon.2),
            if_pos ⟨hthis.1, hthis.2.1, hb, hthis.2.2⟩,
            if_pos ⟨hb, w, List.mem_cons_self w rest, hthis⟩]
      · by_cases hrest : ∃ w2 ∈ rest, px = x + w2.1 ∧ py = y + w2.2 ∧
            w2.1 * w2.1 + w2.2 * w2.2 ≤ half * half
        · rcases hrest with ⟨w2, hmem, hw2⟩
          rw [if_pos ⟨hb, w2, hmem, hw2⟩,
            if_neg (fun hcon => hthis ⟨hcon.1, hcon.2.1, hcon.2.2.2⟩),
            if_pos ⟨hb, w2, List.mem_cons_of_mem w hmem, hw2⟩]
        · rw [if_neg (fun hcon => hrest hcon.2),
            if_neg (fun hcon => hthis ⟨hcon.1, hcon.2.1, hcon.2.2.2⟩), if_neg]
          rintro ⟨-, w2, hmem, hw2⟩
          rcases List.mem_cons.mp hmem with rfl | hmem2
          · exact hthis ⟨hw2.1, hw2.2.1, hw2.2.2⟩
          · exact hrest ⟨w2, hmem2, hw2⟩
    · rw [if_neg (fun hcon => hb hcon.1), if_neg (fun hcon => hb hcon.2.2.1),
        if_neg (fun hcon => hb hcon.1)]

theorem intRange_mem (lo hi a : ℤ) : a ∈ intRange lo hi ↔ lo ≤ a ∧ a ≤ hi := by
  rw [intRange]
  simp only [List.mem_map, List.mem_range]
  constructor
  · rintro ⟨k, hk, rfl⟩
    omega
  · rintro ⟨h1, h2⟩
    refine ⟨(a - lo).toNat, by omega, by omega⟩

theorem discOffsets_mem (half wx wy : ℤ) :
    (wx, wy) ∈ discOffsets half ↔ (-half ≤ wx ∧ wx ≤ half) ∧ (-half ≤ wy ∧ wy ≤ half) := by
  rw [discOffsets]
  simp only [List.mem_bind, List.mem_map, Prod.mk.injEq]
  constructor
  · rintro ⟨u, hu, v, hv, rfl, rfl⟩
    exact ⟨(intRange_mem _ _ _).mp hu, (intRange_mem _ _ _).mp hv⟩
  · rintro ⟨hx, hy⟩
    exact ⟨wx, (intRange_mem _ _ _).mpr hx, wy, (intRange_mem _ _ _).mpr hy, rfl, rfl⟩

theorem sq_le_bound {u half : ℤ} (hh : 0 ≤ half) (h : u * u ≤ half * half) :
    -half ≤ u ∧ u ≤ half := by
  constructor <;> nlinarith

/-- The disc-offset search around a stamped centre is exactly the squared
distance test: the offset range `[-half, half]` is implied by the disc
inequality. -/
theorem discOffsets_cover (half x y px py : ℤ) (hh : 0 ≤ half) :
    (∃ w ∈ discOffsets half, px = x + w.1 ∧ py = y + w.2 ∧
        w.1 * w.1 + w.2 * w.2 ≤ half * half) ↔
      (px - x) * (px - x) + (py - y) * (py - y) ≤ half * half := by
  constructor
  · rintro ⟨w, -, rfl, rfl, hd⟩
    have h1 : x + w.1 - x = w.1 := by ring
    have h2 : y + w.2 - y = w.2 := by ring
    rw [h1, h2]
    exact hd
  · intro hd
    refine ⟨(px - x, py - y), ?_, by ring, by ring, hd⟩
    rw [discOffsets_mem]
    have h1 : (px - x) * (px - x) ≤ half * half := by nlinarith [sq_nonneg (py - y)]
    have h2 : (py - y) * (py - y) ≤ half * half := by nlinarith [sq_nonneg (px - x)]
    exact ⟨sq_le_bound hh h1, sq_le_bound hh h2⟩

theorem erase_line_char (c : Canvas) (x1 y1 x2 y2 : ℤ) (width : ℕ) :
    (erase_line_on_canvas c x1 y1 x2 y2 width).width = c.width ∧
    (erase_line_on_canvas c x1 y1 x2 y2 width).height = c.height ∧
    ∀ px py : ℤ,
      (erase_line_on_canvas c x1 y1 x2 y2 width).pix px py =
        if stampedSeg c x1 y1 x2 y2 ((width / 2 : ℕ) : ℤ) px py
        then alpha0 (c.pix px py) else c.pix px py := by
  rw [erase_line_on_canvas]
  set half : ℤ := ((width / 2 : ℕ) : ℤ) with hhalf
  have hh : 0 ≤ half := Int.ofNat_nonneg _
  have main : ∀ (qs : List (ℤ × ℤ)) (c : Canvas),
      (qs.foldl (fun acc xy => (discOffsets half).foldl
        (eraseStampAt half xy.1 xy.2) acc) c).width = c.width ∧
      (qs.foldl (fun acc xy => (discOffsets half).foldl
        (eraseStampAt half xy.1 xy.2) acc) c).height = c.height ∧
      ∀ px py : ℤ,
        (qs.foldl (fun acc xy => (discOffsets half).foldl
          (eraseStampAt half xy.1 xy.2) acc) c).pix px py =
          if c.inBounds px py ∧ ∃ q ∈ qs,
              (px - q.1) * (px - q.1) + (py - q.2) * (py - q.2) ≤ half * half
          then alpha0 (c.pix px py) else c.pix px py := by
    intro qs
    induction qs with
    | nil =>
      intro c
      refine ⟨rfl, rfl, fun px py => ?_⟩
      rw [List.foldl_nil, if_neg (by rintro ⟨-, q, hq, -⟩; exact (List.not_mem_nil q) hq)]
    | cons q rest ih =>
      intro c
      rw [List.foldl_cons]
      rcases eraseOffsets_fold half q.1 q.2 (discOffsets half) c with ⟨hw1, hh1, hp1⟩
      rcases ih ((discOffsets half).foldl (eraseStampAt half q.1 q.2) c) with
        ⟨ihw, ihh, ihp⟩
      refine ⟨by rw [ihw, hw1], by rw [ihh, hh1], fun px py => ?_⟩
      rw [ihp px py, hp1 px py]
      simp only [inBounds_of_dims hw1 hh1]
      by_cases hb : c.inBounds px py
      · by_cases hthis : (px - q.1) * (px - q.1) + (py - q.2) * (py - q.2) ≤ half * half
        · by_cases hrest : ∃ q2 ∈ rest,
              (px - q2.1) * (px - q2.1) + (py - q2.2) * (py - q2.2) ≤ half * half
          · rw [if_pos ⟨hb, hrest⟩,
              if_pos ⟨hb, (discOffsets_cover half q.1 q.2 px py hh).mpr hthis⟩,
              if_pos ⟨hb, q, List.mem_cons_self q rest, hthis⟩, alphaZero_idem]
          · rw [if_neg (fun hcon => hrest hcon.2),
              if_pos ⟨hb, (discOffsets_cover half q.1 q.2 px py hh).mpr hthis⟩,
              if_pos ⟨hb, q, List.mem_cons_self q rest, hthis⟩]
        · by_cases hrest : ∃ q2 ∈ rest,
              (px - q2.1) * (px - q2.1) + (py - q2.2) * (py - q2.2) ≤ half * half
          · rcases hrest with ⟨q2, hmem, hq2⟩
            rw [if_pos ⟨hb, q2, hmem, hq2⟩,
              if_neg (fun hcon =>
                hthis ((discOffsets_cover half q.1 q.2 px py hh).mp hcon.2)),
              if_pos ⟨hb, q2, List.mem_cons_of_mem q hmem, hq2⟩]
          · rw [if_neg (fun hcon => hrest hcon.2),
              if_neg (fun hcon =>
                hthis ((discOffsets_cover half q.1 q.2 px py hh).mp hcon.2)), if_neg]
            rintro ⟨-, q2, hmem, hq2⟩
            rcases List.mem_cons.mp hmem with rfl | hmem2
            · exact hthis hq2
            · exact hrest ⟨q2, hmem2, hq2⟩
      · rw [if_neg (fun hcon => hb hcon.1), if_neg (fun hcon => hb hcon.1),
          if_neg (fun hcon => hb hcon.1)]
  rcases main (bresenham x1 y1 x2 y2) c with ⟨h1, h2, h3⟩
  refine ⟨h1, h2, fun px py => ?_⟩
  rw [h3 px py]
  simp only [stampedSeg]

theorem eraseSegs_fold (sz : ℕ) :
    ∀ (points : List SPoint) (c : Canvas),
      ((points.foldl (fun acc p => erase_line_on_canvas acc (f32AsI32 p.from_x)
        (f32AsI32 p.from_y) (f32AsI32 p.to_x) (f32AsI32 p.to_y) sz) c)).width = c.width ∧
      ((points.foldl (fun acc p => erase_line_on_canvas acc (f32AsI32 p.from_x)
        (f32AsI32 p.from_y) (f32AsI32 p.to_x) (f32AsI32 p.to_y) sz) c)).height = c.height ∧
      ∀ px py : ℤ,
        ((points.foldl (fun acc p => erase_line_on_canvas acc (f32AsI32 p.from_x)
          (f32AsI32 p.from_y) (f32AsI32 p.to_x) (f32AsI32 p.to_y) sz) c)).pix px py =
          if ∃ p ∈ points, stampedSeg c (f32AsI32 p.from_x) (f32AsI32 p.from_y)
              (f32AsI32 p.to_x) (f32AsI32 p.to_y) ((sz / 2 : ℕ) : ℤ) px py
          then alpha0 (c.pix px py) else c.pix px py := by
  intro points
  induction points with
  | nil =>
    intro c
    refine ⟨rfl, rfl, fun px py => ?_⟩
    rw [List.foldl_nil, if_neg (by rintro ⟨p, hp, -⟩; exact (List.not_mem_nil p) hp)]
  | cons p rest ih =>
    intro c
    rw [List.foldl_cons]
    rcases erase_line_char c (f32AsI32 p.from_x) (f32AsI32 p.from_y)
      (f32AsI32 p.to_x) (f32AsI32 p.to_y) sz with ⟨hw1, hh1, hp1⟩
    rcases ih (erase_line_on_canvas c (f32AsI32 p.from_x) (f32AsI32 p.from_y)
      (f32AsI32 p.to_x) (f32AsI32 p.to_y) sz) with ⟨ihw, ihh, ihp⟩
    refine ⟨by rw [ihw, hw1], by rw [ihh, hh1], fun px py => ?_⟩
    have hbiff : ∀ p2 : SPoint,
        stampedSeg (erase_line_on_canvas c (f32AsI32 p.from_x) (f32AsI32 p.from_y)
          (f32AsI32 p.to_x) (f32AsI32 p.to_y) sz)
          (f32AsI32 p2.from_x) (f32AsI32 p2.from_y) (f32AsI32 p2.to_x)
          (f32AsI32 p2.to_y) ((sz / 2 : ℕ) : ℤ) px py ↔
        stampedSeg c (f32AsI32 p2.from_x) (f32AsI32 p2.from_y) (f32AsI32 p2.to_x)
          (f32AsI32 p2.to_y) ((sz / 2 : ℕ) : ℤ) px py := by
      intro p2
      rw [stampedSeg, stampedSeg, inBounds_of_dims hw1 hh1 px py]
    have hrest1 : (∃ p2 ∈ rest,
        stampedSeg (erase_line_on_canvas c (f32AsI32 p.from_x) (f32AsI32 p.from_y)
          (f32AsI32 p.to_x) (f32AsI32 p.to_y) sz)
          (f32AsI32 p2.from_x) (f32AsI32 p2.from_y) (f32AsI32 p2.to_x)
          (f32AsI32 p2.to_y) ((sz / 2 : ℕ) : ℤ) px py) ↔
        ∃ p2 ∈ rest, stampedSeg c (f32AsI32 p2.from_x) (f32AsI32 p2.from_y)
          (f32AsI32 p2.to_x) (f32AsI32 p2.to_y) ((sz / 2 : ℕ) : ℤ) px py := by
      constructor
      · rintro ⟨p2, hm, hp2⟩
        exact ⟨p2, hm, (hbiff p2).mp hp2⟩
      · rintro ⟨p2, hm, hp2⟩
        exact ⟨p2, hm, (hbiff p2).mpr hp2⟩
    rw [ihp px py, hp1 px py]
    by_cases hthis : stampedSeg c (f32AsI32 p.from_x) (f32AsI32 p.from_y)
        (f32AsI32 p.to_x) (f32AsI32 p.to_y) ((sz / 2 : ℕ) : ℤ) px py
    · by_cases hrest : ∃ p2 ∈ rest, stampedSeg c (f32AsI32 p2.from_x)
          (f32AsI32 p2.from_y) (f32AsI32 p2.to_x) (f32AsI32 p2.to_y)
          ((sz / 2 : ℕ) : ℤ) px py
      · rw [if_pos (hrest1.mpr hrest), if_pos hthis,
          if_pos ⟨p, List.mem_cons_self p rest, hthis⟩, alphaZero_idem]
      · rw [if_neg (fun hcon => hrest (hrest1.mp hcon)), if_pos hthis,
          if_pos ⟨p, List.mem_cons_self p rest, hthis⟩]
    · by_cases hrest : ∃ p2 ∈ rest, stampedSeg c (f32AsI32 p2.from_x)
          (f32AsI32 p2.from_y) (f32AsI32 p2.to_x) (f32AsI32 p2.to_y)
          ((sz / 2 : ℕ) : ℤ) px py
      · rcases hrest with ⟨p2, hmem, hp2⟩
        rw [if_pos (hrest1.mpr ⟨p2, hmem, hp2⟩), if_neg hthis,
          if_pos ⟨p2, List.mem_cons_of_mem p hmem, hp2⟩]
      · rw [if_neg (fun hcon => hrest (hrest1.mp hcon)), if_neg hthis, if_neg]
        rintro ⟨p2, hmem, hp2⟩
        rcases List.mem_cons.mp hmem with rfl | hmem2
        · exact hthis hp2
        · exact hrest ⟨p2, hmem2, hp2⟩

/-- C6: applying an Erase stroke in the compositor sets the alpha channel to
0 at exactly the in-bounds pixels within the stamping disc (radius
`eraser_size/2`, default 15) along the walked digital lines of its segments,
and changes nothing else: the canvas dimensions are kept, every pixel
outside the stamped region keeps all four channels, the RGB channels are
unchanged everywhere, and out-of-bounds writes are skipped. -/
theorem spec_C6 (c : Canvas) (pts : List SPoint) (col : Option (List ℕ))
    (lw esz : Option ℕ) :
    ∃ c2, applyStroke c ⟨"erase", pts, col, lw, esz⟩ = some c2 ∧
      c2.width = c.width ∧ c2.height = c.height ∧
      (∀ px py : ℤ, eraseRegion c ⟨"erase", pts, col, lw, esz⟩ px py →
          c2.pix px py = alpha0 (c.pix px py)) ∧
      (∀ px py : ℤ, ¬eraseRegion c ⟨"erase", pts, col, lw, esz⟩ px py →
          c2.pix px py = c.pix px py) ∧
      (∀ px py : ℤ, (c2.pix px py).r = (c.pix px py).r ∧
          (c2.pix px py).g = (c.pix px py).g ∧ (c2.pix px py).b = (c.pix px py).b) ∧
      (∀ px py : ℤ, ¬c.inBounds px py → c2.pix px py = c.pix px py) := by
  by_cases hemp : pts = []
  · subst hemp
    refine ⟨c, rfl, rfl, rfl, ?_, fun _ _ _ => rfl, fun _ _ => ⟨rfl, rfl, rfl⟩,
      fun _ _ _ => rfl⟩
    intro px py hr
    rcases hr with ⟨p, hp, -⟩
    exact absurd hp (List.not_mem_nil p)
  · rcases eraseSegs_fold (esz.getD 15) pts c with ⟨hw, hh, hp⟩
    have happ : applyStroke c ⟨"erase", pts, col, lw, esz⟩ =
        some (pts.foldl (fun acc p => erase_line_on_canvas acc (f32AsI32 p.from_x)
          (f32AsI32 p.from_y) (f32AsI32 p.to_x) (f32AsI32 p.to_y) (esz.getD 15)) c) := by
      rw [applyStroke,
        if_neg (show ¬((CStroke.mk "erase" pts col lw esz).points.isEmpty = true) by
          simpa using hemp),
        if_neg (show ¬((CStroke.mk "erase" pts col lw esz).stroke_type = "draw") by
          intro hcon
          exact absurd (show ("erase" : String) = "draw" from hcon) (by decide)),
        if_pos (show (CStroke.mk "erase" pts col lw esz).stroke_type = "erase" from rfl)]
    refine ⟨_, happ, hw, hh, ?_, ?_, ?_, ?_⟩
    · intro px py hr
      have hr2 : ∃ p ∈ pts, stampedSeg c (f32AsI32 p.from_x) (f32AsI32 p.from_y)
          (f32AsI32 p.to_x) (f32AsI32 p.to_y) (((esz.getD 15) / 2 : ℕ) : ℤ) px py := hr
      rw [hp px py, if_pos hr2]
    · intro px py hr
      have hr2 : ¬∃ p ∈ pts, stampedSeg c (f32AsI32 p.from_x) (f32AsI32 p.from_y)
          (f32AsI32 p.to_x) (f32AsI32 p.to_y) (((esz.getD 15) / 2 : ℕ) : ℤ) px py :=
        fun h => hr h
      rw [hp px py, if_neg hr2]
    · intro px py
      rw [hp px py]
      by_cases hr : ∃ p ∈ pts, stampedSeg c (f32AsI32 p.from_x) (f32AsI32 p.from_y)
          (f32AsI32 p.to_x) (f32AsI32 p.to_y) (((esz.getD 15) / 2 : ℕ) : ℤ) px py
      · rw [if_pos hr]
        exact ⟨rfl, rfl, rfl⟩
      · rw [if_neg hr]
        exact ⟨rfl, rfl, rfl⟩
    · intro px py hb
      rw [hp px py, if_neg]
      rintro ⟨p, -, hs, -⟩
      exact hb hs

theorem drawStampAt_dims (color : Rgba) (half x y : ℤ) (c : Canvas) (w : ℤ × ℤ) :
    (drawStampAt color half x y c w).width = c.width ∧
    (drawStampAt color half x y c w).height = c.height := by
  rw [drawStampAt]
  split
  · split <;> exact ⟨rfl, rfl⟩
  · exact ⟨rfl, rfl⟩

theorem drawStampAt_pix (color : Rgba) (h255 : color.a = 255) (half x y : ℤ)
    (c : Canvas) (w : ℤ × ℤ) (px py : ℤ) :
    (drawStampAt color half x y c w).pix px py =
      if px = x + w.1 ∧ py = y + w.2 ∧ c.inBounds px py ∧
          w.1 * w.1 + w.2 * w.2 ≤ half * half
      then color else c.pix px py := by
  rw [drawStampAt]
  by_cases hg : c.inBounds (x + w.1) (y + w.2) ∧ w.1 * w.1 + w.2 * w.2 ≤ half * half
  · rw [if_pos hg, if_pos h255, Canvas.set]
    dsimp only
    by_cases he : px = x + w.1 ∧ py = y + w.2
    · rw [if_pos he, if_pos ⟨he.1, he.2, by rw [he.1, he.2]; exact hg.1, hg.2⟩]
    · rw [if_neg he, if_neg (fun hcon => he ⟨hcon.1, hcon.2.1⟩)]
  · rw [if_neg hg]
    by_cases he : px = x + w.1 ∧ py = y + w.2 ∧ c.inBounds px py ∧
        w.1 * w.1 + w.2 * w.2 ≤ half * half
    · exact absurd ⟨by rw [← he.1, ← he.2.1]; exact he.2.2.1, he.2.2.2⟩ hg
    · rw [if_neg he]

theorem drawOffsets_fold (color : Rgba) (h255 : color.a = 255) (half x y : ℤ) :
    ∀ (ws : List (ℤ × ℤ)) (c : Canvas),
      (ws.foldl (drawStampAt color half x y) c).width = c.width ∧
      (ws.foldl (drawStampAt color half x y) c).height = c.height ∧
      ∀ px py : ℤ,
        (ws.foldl (drawStampAt color half x y) c).pix px py =
          if c.inBounds px py ∧ ∃ w ∈ ws, px = x + w.1 ∧ py = y + w.2 ∧
              w.1 * w.1 + w.2 * w.2 ≤ half * half
          then color else c.pix px py := by
  intro ws
  induction ws with
  | nil =>
    intro c
    refine ⟨rfl, rfl, fun px py => ?_⟩
    rw [List.foldl_nil, if_neg (by rintro ⟨-, w, hw, -⟩; exact (List.not_mem_nil w) hw)]
  | cons w rest ih =>
    intro c
    rw [List.foldl_cons]
    rcases ih (drawStampAt color half x y c w) with ⟨ihw, ihh, ihp⟩
    rcases drawStampAt_dims color half x y c w with ⟨hw1, hh1⟩
    refine ⟨by rw [ihw, hw1], by rw [ihh, hh1], fun px py => ?_⟩
    rw [ihp px py, drawStampAt_pix color h255 half x y c w px py]
    simp only [inBounds_of_dims hw1 hh1]
    by_cases hb : c.inBounds px py
    · by_cases hthis : px = x + w.1 ∧ py = y + w.2 ∧
          w.1 * w.1 + w.2 * w.2 ≤ half * half
      · by_cases hrest : ∃ w2 ∈ rest, px = x + w2.1 ∧ py = y + w2.2 ∧
            w2.1 * w2.1 + w2.2 * w2.2 ≤ half * half
        · rw [if_pos ⟨hb, hrest⟩, if_pos ⟨hb, w, List.mem_cons_self w rest, hthis⟩]
        · rw [if_neg (fun hcon => hrest hcon.2),
            if_pos ⟨hthis.1, hthis.2.1, hb, hthis.2.2⟩,
            if_pos ⟨hb, w, List.mem_cons_self w rest, hthis⟩]
      · by_cases hrest : ∃ w2 ∈ rest, px = x + w2.1 ∧ py = y + w2.2 ∧
            w2.1 * w2.1 + w2.2 * w2.2 ≤ half * half
        · rcases hrest with ⟨w2, hmem, hw2⟩
          rw [if_pos ⟨hb, w2, hmem, hw2⟩,
            if_pos ⟨hb, w2, List.mem_cons_of_mem w hmem, hw2⟩]
        · rw [if_neg (fun hcon => hrest hcon.2),
            if_neg (fun hcon => hthis ⟨hcon.1, hcon.2.1, hcon.2.2.2⟩), if_neg]
          rintro ⟨-, w2, hmem, hw2⟩
          rcases List.mem_cons.mp hmem with rfl | hmem2
          · exact hthis ⟨hw2.1, hw2.2.1, hw2.2.2⟩
          · exact hrest ⟨w2, hmem2, hw2⟩
    · rw [if_neg (fun hcon => hb hcon.1), if_neg (fun hcon => hb hcon.2.2.1),
        if_neg (fun hcon => hb hcon.1)]

theorem draw_line_char (c : Canvas) (x1 y1 x2 y2 : ℤ) (color : Rgba)
    (h255 : color.a = 255) (width : ℕ) :
    (draw_line_on_canvas c x1 y1 x2 y2 color width).width = c.width ∧
    (draw_line_on_canvas c x1 y1 x2 y2 color width).height = c.height ∧
    ∀ px py : ℤ,
      (draw_line_on_canvas c x1 y1 x2 y2 color width).pix px py =
        if stampedSeg c x1 y1 x2 y2 ((width / 2 : ℕ) : ℤ) px py
        then color else c.pix px py := by
  rw [draw_line_on_canvas]
  set half : ℤ := ((width / 2 : ℕ) : ℤ) with hhalf
  have hh : 0 ≤ half := Int.ofNat_nonneg _
  have main : ∀ (qs : List (ℤ × ℤ)) (c : Canvas),
      (qs.foldl (fun acc xy => (discOffsets half).foldl
        (drawStampAt color half xy.1 xy.2) acc) c).width = c.width ∧
      (qs.foldl (fun acc xy => (discOffsets half).foldl
        (drawStampAt color half xy.1 xy.2) acc) c).height = c.height ∧
      ∀ px py : ℤ,
        (qs.foldl (fun acc xy => (discOffsets half).foldl
          (drawStampAt color half xy.1 xy.2) acc) c).pix px py =
          if c.inBounds px py ∧ ∃ q ∈ qs,
              (px - q.1) * (px - q.1) + (py - q.2) * (py - q.2) ≤ half * half
          then color else c.pix px py := by
    intro qs
    induction qs with
    | nil =>
      intro c
      refine ⟨rfl, rfl, fun px py => ?_⟩
      rw [List.foldl_nil,
        if_neg (by rintro ⟨-, q, hq, -⟩; exact (List.not_mem_nil q) hq)]
    | cons q rest ih =>
      intro c
      rw [List.foldl_cons]
      rcases drawOffsets_fold color h255 half q.1 q.2 (discOffsets half) c with ⟨hw1, hh1, hp1⟩
      rcases ih ((discOffsets half).foldl (drawStampAt color half q.1 q.2) c) with
        ⟨ihw, ihh, ihp⟩
      refine ⟨by rw [ihw, hw1], by rw [ihh, hh1], fun px py => ?_⟩
      rw [ihp px py, hp1 px py]
      simp only [inBounds_of_dims hw1 hh1]
      by_cases hb : c.inBounds px py
      · by_cases hthis : (px - q.1) * (px - q.1) + (py - q.2) * (py - q.2) ≤ half * half
        · by_cases hrest : ∃ q2 ∈ rest,
              (px - q2.1) * (px - q2.1) + (py - q2.2) * (py - q2.2) ≤ half * half
          · rw [if_pos ⟨hb, hrest⟩, if_pos ⟨hb, q, List.mem_cons_self q rest, hthis⟩]
          · rw [if_neg (fun hcon => hrest hcon.2),
              if_pos ⟨hb, (discOffsets_cover half q.1 q.2 px py hh).mpr hthis⟩,
              if_pos ⟨hb, q, List.mem_cons_self q rest, hthis⟩]
        · by_cases hrest : ∃ q2 ∈ rest,
              (px - q2.1) * (px - q2.1) + (py - q2.2) * (py - q2.2) ≤ half * half
          · rcases hrest with ⟨q2, hmem, hq2⟩
            rw [if_pos ⟨hb, q2, hmem, hq2⟩,
              if_pos ⟨hb, q2, List.mem_cons_of_mem q hmem, hq2⟩]
          · rw [if_neg (fun hcon => hrest hcon.2),
              if_neg (fun hcon =>
                hthis ((discOffsets_cover half q.1 q.2 px py hh).mp hcon.2)), if_neg]
            rintro ⟨-, q2, hmem, hq2⟩
            rcases List.mem_cons.mp hmem with rfl | hmem2
            · exact hthis hq2
            · exact hrest ⟨q2, hmem2, hq2⟩
      · rw [if_neg (fun hcon => hb hcon.1), if_neg (fun hcon => hb hcon.1),
          if_neg (fun hcon => hb hcon.1)]
  rcases main (bresenham x1 y1 x2 y2) c with ⟨h1, h2, h3⟩
  refine ⟨h1, h2, fun px py => ?_⟩
  rw [h3 px py]
  simp only [stampedSeg]

theorem drawSegs_pix_cases (color : Rgba) (h255 : color.a = 255) (lwv : ℕ) :
    ∀ (points : List SPoint) (c : Canvas) (px py : ℤ),
      ((points.foldl (fun acc p => draw_line_on_canvas acc (f32AsI32 p.from_x)
          (f32AsI32 p.from_y) (f32AsI32 p.to_x) (f32AsI32 p.to_y) color lwv) c).pix px py
        = c.pix px py) ∨
      ((points.foldl (fun acc p => draw_line_on_canvas acc (f32AsI32 p.from_x)
          (f32AsI32 p.from_y) (f32AsI32 p.to_x) (f32AsI32 p.to_y) color lwv) c).pix px py
        = color) := by
  intro points
  induction points with
  | nil => intro c px py; exact Or.inl rfl
  | cons p rest ih =>
    intro c px py
    rw [List.foldl_cons]
    rcases ih (draw_line_on_canvas c (f32AsI32 p.from_x) (f32AsI32 p.from_y)
      (f32AsI32 p.to_x) (f32AsI32 p.to_y) color lwv) px py with h | h
    · rw [h]
      rcases draw_line_char c (f32AsI32 p.from_x) (f32AsI32 p.from_y)
        (f32AsI32 p.to_x) (f32AsI32 p.to_y) color h255 lwv with ⟨-, -, hp⟩
      rw [hp px py]
      by_cases hs : stampedSeg c (f32AsI32 p.from_x) (f32AsI32 p.from_y)
          (f32AsI32 p.to_x) (f32AsI32 p.to_y) ((lwv / 2 : ℕ) : ℤ) px py
      · rw [if_pos hs]
        exact Or.inr rfl
      · rw [if_neg hs]
        exact Or.inl rfl
    · rw [h]
      exact Or.inr rfl

/-- C10 counterexample: the 7-byte string `"#aÄxyz"` (bytes
`[35, 97, 195, 132, 120, 121, 122]`) starts with `#` and has byte length 7,
but byte 3 is the continuation byte `0x84` of the two-byte character `Ä`, so
`&color_str[1..3]` panics instead of returning a color — refuting "returns a
fully opaque color for every input string". -/
theorem spec_C10_cex :
    parse_color [35, 97, 195, 132, 120, 121, 122] = none ∧
    ([35, 97, 195, 132, 120, 121, 122] : List ℕ).head? = some 35 ∧
    ([35, 97, 195, 132, 120, 121, 122] : List ℕ).length = 7 := by
  refine ⟨?_, rfl, rfl⟩
  rw [parse_color, if_pos ⟨rfl, rfl⟩, if_pos (Or.inl (by constructor <;> norm_num))]

/-- C10 (amended): whenever `parse_color` returns (every ASCII input, and
generally every input whose bytes 3 and 5 are character boundaries), the
color is fully opaque (alpha 255); a returning 7-byte `#RRGGBB` string
yields its three RGB components, each hex pair parsed by `from_str_radix`
and each malformed pair defaulting individually to 52, 152 and 219
respectively — concretely, `"#3498db"` parses to its components
`(52,152,219,255)` and `"#ff00zz"` (a malformed blue pair only) to
`(255,0,219,255)`; a non-`#`-prefixed or non-7-byte input yields the
default `(52,152,219,255)`; `parse_color` fails to return (the
byte-slicing panics) exactly on 7-byte `#`-strings whose byte 3 or 5 is a
UTF-8 continuation byte.  Consequently a fully opaque color makes
`draw_line_on_canvas` replace every stamped pixel outright (the translucent
blend branch is unreachable), and every draw stroke `compact_strokes`
applies leaves each pixel either untouched or set to the parsed color. -/
theorem spec_C10_amended :
    (∀ (s : List ℕ) (q : Rgba), parse_color s = some q → q.a = 255) ∧
    (∀ b1 b2 b3 b4 b5 b6 : ℕ, ¬isContinuation b3 → ¬isContinuation b5 →
        parse_color [35, b1, b2, b3, b4, b5, b6] =
          some ⟨(fromStrRadix16 [b1, b2]).getD 52, (fromStrRadix16 [b3, b4]).getD 152,
            (fromStrRadix16 [b5, b6]).getD 219, 255⟩) ∧
    parse_color defaultColorBytes = some ⟨52, 152, 219, 255⟩ ∧
    parse_color [35, 102, 102, 48, 48, 122, 122] = some ⟨255, 0, 219, 255⟩ ∧
    (∀ s : List ℕ, ¬(s.head? = some 35 ∧ s.length = 7) →
        parse_color s = some ⟨52, 152, 219, 255⟩) ∧
    (∀ s : List ℕ, parse_color s = none ↔
        (s.head? = some 35 ∧ s.length = 7 ∧
          (isContinuation (s.getD 3 0) ∨ isContinuation (s.getD 5 0)))) ∧
    (∀ (c : Canvas) (x1 y1 x2 y2 : ℤ) (color : Rgba) (w : ℕ), color.a = 255 →
        ∀ px py : ℤ,
          (draw_line_on_canvas c x1 y1 x2 y2 color w).pix px py =
            if stampedSeg c x1 y1 x2 y2 ((w / 2 : ℕ) : ℤ) px py then color
            else c.pix px py) ∧
    (∀ (c : Canvas) (st : CStroke) (c2 : Canvas), st.stroke_type = "draw" →
        st.points ≠ [] → applyStroke c st = some c2 →
        ∃ col, parse_color (st.color.getD defaultColorBytes) = some col ∧
          col.a = 255 ∧
          ∀ px py : ℤ, c2.pix px py = c.pix px py ∨ c2.pix px py = col) := by
  have halpha : ∀ (s : List ℕ) (q : Rgba), parse_color s = some q → q.a = 255 := by
    intro s q h
    rw [parse_color] at h
    by_cases h1 : s.head? = some 35 ∧ s.length = 7
    · rw [if_pos h1] at h
      by_cases h2 : isContinuation (s.getD 3 0) ∨ isContinuation (s.getD 5 0)
      · rw [if_pos h2] at h
        exact absurd h (by simp)
      · rw [if_neg h2] at h
        simp only [Option.some.injEq] at h
        rw [← h]
    · rw [if_neg h1] at h
      simp only [Option.some.injEq] at h
      rw [← h]
  refine ⟨halpha, ?_, by decide, by decide, ?_, ?_, ?_, ?_⟩
  · intro b1 b2 b3 b4 b5 b6 h3 h5
    rw [parse_color, if_pos ⟨rfl, rfl⟩, if_neg ?_]
    · rfl
    · rintro (hc | hc)
      · exact h3 hc
      · exact h5 hc
  · intro s h1
    rw [parse_color, if_neg h1]
  · intro s
    rw [parse_color]
    by_cases h1 : s.head? = some 35 ∧ s.length = 7
    · rw [if_pos h1]
      by_cases h2 : isContinuation (s.getD 3 0) ∨ isContinuation (s.getD 5 0)
      · rw [if_pos h2]
        exact iff_of_true rfl ⟨h1.1, h1.2, h2⟩
      · rw [if_neg h2]
        exact iff_of_false (by simp) (fun hcon => h2 hcon.2.2)
    · rw [if_neg h1]
      constructor
      · intro hc
        exact absurd hc (by simp)
      · rintro ⟨ha, hb, -⟩
        exact absurd ⟨ha, hb⟩ h1
  · intro c x1 y1 x2 y2 color w h255 px py
    rcases draw_line_char c x1 y1 x2 y2 color h255 w with ⟨-, -, hp⟩
    exact hp px py
  · intro c st c2 hdraw hne happ
    rw [applyStroke, if_neg (by simpa using hne), if_pos hdraw] at happ
    rcases Option.map_eq_some'.mp happ with ⟨col, hcol, hfold⟩
    refine ⟨col, hcol, halpha _ _ hcol, ?_⟩
    intro px py
    rw [← hfold]
    exact drawSegs_pix_cases col (halpha _ _ hcol) (st.line_width.getD 2)
      st.points c px py

end ViewStage
